import Mathlib

/-!
Verification of the Lumio study-engine core (`src/main.py`) against its
specification.  The Python functions are shallowly embedded as executable
Lean definitions; Python `float` arithmetic on scores is modelled by exact
rationals (`ℚ`), Python strings by Lean `String`/`List Char`, and Python
dicts by insertion-ordered association lists.
-/

set_option maxHeartbeats 1000000

namespace Lumio

/-! ## Text Normalizer (`normalize`, `word_count`)

Character classes model the Python regex classes on the alphabet the
program works with: ASCII plus the German letters `ä ö ü ß` (and their
capitals).  `isSpaceChar` models `\s` / `str.strip` / `str.split`
whitespace restricted to the six ASCII whitespace characters. -/

def isSpaceChar (c : Char) : Bool :=
  c = ' ' || c = '\t' || c = '\n' || c = '\r' || c = '\x0b' || c = '\x0c'

/-- The punctuation allow-list of the scrubbing regex: `= * + - / < > ( )`. -/
def allowPunct (c : Char) : Bool :=
  c = '=' || c = '*' || c = '+' || c = '-' || c = '/' ||
  c = '<' || c = '>' || c = '(' || c = ')'

/-- Model of the regex class `\w` on the ASCII + German-letters alphabet:
ASCII letters, digits, underscore, and the four lowercase German specials
(the uppercase ones never reach the regex stage, which runs after
lowercasing). -/
def isWordChar (c : Char) : Bool :=
  (97 ≤ c.toNat && c.toNat ≤ 122) || (65 ≤ c.toNat && c.toNat ≤ 90) ||
  (48 ≤ c.toNat && c.toNat ≤ 57) || c = '_' ||
  c = 'ä' || c = 'ö' || c = 'ü' || c = 'ß'

/-- Model of `str.lower` on the working alphabet: ASCII `A`–`Z` plus the
capital umlauts and capital sharp-s. -/
def pyToLower (c : Char) : Char :=
  if c = 'Ä' then 'ä'
  else if c = 'Ö' then 'ö'
  else if c = 'Ü' then 'ü'
  else if c = 'ẞ' then 'ß'
  else if 65 ≤ c.toNat ∧ c.toNat ≤ 90 then Char.ofNat (c.toNat + 32)
  else c

/-- The four fixed letter substitutions `ä→ae, ö→oe, ü→ue, ß→ss`.
`str.replace` of a single character by a two-letter ASCII string, chained
four times, is equivalent to this single character-wise expansion because
no replacement output contains a later replacement's source character. -/
def umlautExpand (c : Char) : List Char :=
  if c = 'ä' then ['a', 'e']
  else if c = 'ö' then ['o', 'e']
  else if c = 'ü' then ['u', 'e']
  else if c = 'ß' then ['s', 's']
  else [c]

/-- A character survives the regex scrub (word chars, whitespace and the
punctuation allow-list are kept; everything else becomes a space). -/
def keepChar (c : Char) : Bool :=
  isWordChar c || isSpaceChar c || allowPunct c

/-- The regex substitution step: every non-kept character becomes a space. -/
def subStage (l : List Char) : List Char :=
  l.map (fun c => if keepChar c then c else ' ')

/-- `re.sub(r"\s+", " ", ·)`: each maximal run of whitespace becomes one
space.  The boolean records whether the previous character was whitespace
(i.e. we are inside a run that already emitted its space). -/
def collapseWs : List Char → Bool → List Char
  | [], _ => []
  | c :: rest, prev =>
    if isSpaceChar c then
      if prev then collapseWs rest true else ' ' :: collapseWs rest true
    else c :: collapseWs rest false

/-- `str.strip()`: drop leading and trailing whitespace. -/
def stripChars (l : List Char) : List Char :=
  ((l.dropWhile (isSpaceChar ·)).reverse.dropWhile (isSpaceChar ·)).reverse

/-- `normalize` from `src/main.py` on the character list. -/
def normalizeChars (l : List Char) : List Char :=
  stripChars
    (collapseWs
      (subStage (((stripChars l).map pyToLower).flatMap umlautExpand)) false)

/-- `normalize(text)` from `src/main.py`:
strip, lowercase, umlaut substitutions, regex punctuation scrub,
whitespace collapse, strip. -/
def normalize (text : String) : String :=
  ⟨normalizeChars text.data⟩

/-- Token counter for `str.split()`: counts maximal runs of non-whitespace
characters.  The flag records whether we are inside a token. -/
def countTokens : List Char → Bool → Nat
  | [], _ => 0
  | c :: rest, inWord =>
    if isSpaceChar c then countTokens rest false
    else (if inWord then 0 else 1) + countTokens rest true

/-- `word_count(norm_text)` from `src/main.py`:
`0 if not norm_text else len(norm_text.split())`. -/
def word_count (norm_text : String) : Nat :=
  if norm_text.data = [] then 0 else countTokens norm_text.data false

/-! ### Idempotence of `normalize` -/

theorem toNat_ofNat_valid (n : Nat) (h : n.isValidChar) : (Char.ofNat n).toNat = n := by
  unfold Char.ofNat
  rw [dif_pos h]
  rfl

theorem char_ne_of_toNat_ne {c d : Char} (h : c.toNat ≠ d.toNat) : c ≠ d :=
  fun he => h (congrArg Char.toNat he)

theorem char_ne_of_gt {c d : Char} {k : Nat} (h1 : c.toNat ≤ k) (h2 : k < d.toNat) :
    c ≠ d :=
  char_ne_of_toNat_ne (Nat.ne_of_lt (Nat.lt_of_le_of_lt h1 h2))

/-- After lowering and umlaut expansion, every character is fixed by both
`pyToLower` and `umlautExpand`. -/
theorem expand_lower_stable (c : Char) :
    ∀ d ∈ umlautExpand (pyToLower c), pyToLower d = d ∧ umlautExpand d = [d] := by
  by_cases hA : c = 'Ä'
  · subst hA; decide
  by_cases hO : c = 'Ö'
  · subst hO; decide
  by_cases hU : c = 'Ü'
  · subst hU; decide
  by_cases hS : c = 'ẞ'
  · subst hS; decide
  by_cases hAZ : 65 ≤ c.toNat ∧ c.toNat ≤ 90
  · have hpl : pyToLower c = Char.ofNat (c.toNat + 32) := by
      unfold pyToLower
      rw [if_neg hA, if_neg hO, if_neg hU, if_neg hS, if_pos hAZ]
    have hval : (c.toNat + 32).isValidChar := by
      left; omega
    have ht : (Char.ofNat (c.toNat + 32)).toNat = c.toNat + 32 :=
      toNat_ofNat_valid _ hval
    rw [hpl]
    have hle : (Char.ofNat (c.toNat + 32)).toNat ≤ 122 := by rw [ht]; omega
    have hexp : umlautExpand (Char.ofNat (c.toNat + 32)) = [Char.ofNat (c.toNat + 32)] := by
      unfold umlautExpand
      rw [if_neg (char_ne_of_gt hle (by decide)),
          if_neg (char_ne_of_gt hle (by decide)),
          if_neg (char_ne_of_gt hle (by decide)),
          if_neg (char_ne_of_gt hle (by decide))]
    rw [hexp]
    intro d hd
    rw [List.mem_singleton] at hd
    subst hd
    refine ⟨?_, hexp⟩
    unfold pyToLower
    rw [if_neg (char_ne_of_gt hle (by decide)),
        if_neg (char_ne_of_gt hle (by decide)),
        if_neg (char_ne_of_gt hle (by decide)),
        if_neg (char_ne_of_gt hle (by decide)),
        if_neg (by rw [ht]; omega)]
  · have hpl : pyToLower c = c := by
      unfold pyToLower
      rw [if_neg hA, if_neg hO, if_neg hU, if_neg hS, if_neg hAZ]
    rw [hpl]
    by_cases ha : c = 'ä'
    · subst ha; decide
    by_cases ho : c = 'ö'
    · subst ho; decide
    by_cases hu : c = 'ü'
    · subst hu; decide
    by_cases hb : c = 'ß'
    · subst hb; decide
    have hexp : umlautExpand c = [c] := by
      unfold umlautExpand
      rw [if_neg ha, if_neg ho, if_neg hu, if_neg hb]
    rw [hexp]
    intro d hd
    rw [List.mem_singleton] at hd
    subst hd
    exact ⟨hpl, hexp⟩

theorem mem_expanded_stable (l : List Char) :
    ∀ d ∈ (l.map pyToLower).flatMap umlautExpand,
      pyToLower d = d ∧ umlautExpand d = [d] := by
  intro d hd
  rw [List.mem_flatMap] at hd
  obtain ⟨e, he, hde⟩ := hd
  rw [List.mem_map] at he
  obtain ⟨c, _, rfl⟩ := he
  exact expand_lower_stable c d hde

theorem mem_subStage_stable (m : List Char)
    (hm : ∀ d ∈ m, pyToLower d = d ∧ umlautExpand d = [d]) :
    ∀ c ∈ subStage m,
      pyToLower c = c ∧ umlautExpand c = [c] ∧ keepChar c = true := by
  intro c hc
  unfold subStage at hc
  rw [List.mem_map] at hc
  obtain ⟨d, hd, rfl⟩ := hc
  by_cases h : keepChar d = true
  · rw [if_pos h]
    exact ⟨(hm d hd).1, (hm d hd).2, h⟩
  · rw [if_neg h]
    refine ⟨by decide, by decide, by decide⟩

theorem mem_collapseWs (m : List Char) :
    ∀ b, ∀ c ∈ collapseWs m b, c = ' ' ∨ (c ∈ m ∧ isSpaceChar c = false) := by
  induction m with
  | nil => intro b c hc; simp [collapseWs] at hc
  | cons d rest ih =>
    intro b c hc
    by_cases hs : isSpaceChar d = true
    · cases b with
      | true =>
        simp only [collapseWs, hs, if_pos, if_true] at hc
        rcases ih true c hc with h | ⟨h1, h2⟩
        · exact Or.inl h
        · exact Or.inr ⟨List.mem_cons_of_mem _ h1, h2⟩
      | false =>
        simp only [collapseWs, hs, if_pos, if_false] at hc
        rcases List.mem_cons.mp hc with h | h
        · exact Or.inl h
        · rcases ih true c h with h | ⟨h1, h2⟩
          · exact Or.inl h
          · exact Or.inr ⟨List.mem_cons_of_mem _ h1, h2⟩
    · simp only [collapseWs, hs, if_neg, if_false, Bool.false_eq_true] at hc
      rcases List.mem_cons.mp hc with h | h
      · subst h
        exact Or.inr ⟨List.mem_cons_self _ _, by revert hs; cases isSpaceChar c <;> simp⟩
      · rcases ih false c h with h | ⟨h1, h2⟩
        · exact Or.inl h
        · exact Or.inr ⟨List.mem_cons_of_mem _ h1, h2⟩

/-- No two adjacent whitespace characters. -/
def SpRel (a b : Char) : Prop := isSpaceChar a = false ∨ isSpaceChar b = false

theorem collapseWs_spec (m : List Char) :
    (∀ c, (collapseWs m true).head? = some c → isSpaceChar c = false) ∧
      ∀ b, List.Chain' SpRel (collapseWs m b) := by
  induction m with
  | nil =>
    constructor
    · intro c h; simp [collapseWs] at h
    · intro b; simp [collapseWs]
  | cons d rest ih =>
    obtain ⟨ihHead, ihChain⟩ := ih
    by_cases hs : isSpaceChar d = true
    · constructor
      · intro c hc
        simp only [collapseWs, hs, if_pos, if_true] at hc
        exact ihHead c hc
      · intro b
        cases b with
        | true =>
          simp only [collapseWs, hs, if_pos, if_true]
          exact ihChain true
        | false =>
          simp only [collapseWs, hs, if_true, Bool.false_eq_true, if_false]
          rw [List.chain'_cons']
          refine ⟨fun h hh => Or.inr (ihHead h hh), ihChain true⟩
    · have hs' : isSpaceChar d = false := by revert hs; cases isSpaceChar d <;> simp
      constructor
      · intro c hc
        simp only [collapseWs, hs, if_neg, Bool.false_eq_true, if_false] at hc
        rw [List.head?_cons, Option.some_inj] at hc
        subst hc; exact hs'
      · intro b
        simp only [collapseWs, hs, if_neg, Bool.false_eq_true, if_false]
        rw [List.chain'_cons']
        exact ⟨fun h _ => Or.inl hs', ihChain false⟩

theorem head_dropWhile_not (p : Char → Bool) (l : List Char) :
    ∀ c, ((l.dropWhile p).head? = some c) → p c = false := by
  induction l with
  | nil => intro c h; simp [List.dropWhile] at h
  | cons d rest ih =>
    intro c h
    by_cases hp : p d = true
    · rw [List.dropWhile_cons_of_pos hp] at h
      exact ih c h
    · rw [List.dropWhile_cons_of_neg hp] at h
      rw [List.head?_cons, Option.some_inj] at h
      subst h
      simpa using hp

theorem mem_of_mem_dropWhileChar {p : Char → Bool} {c : Char} {l : List Char}
    (h : c ∈ l.dropWhile p) : c ∈ l := by
  induction l with
  | nil => simpa [List.dropWhile] using h
  | cons d rest ih =>
    by_cases hp : p d = true
    · rw [List.dropWhile_cons_of_pos hp] at h
      exact List.mem_cons_of_mem _ (ih h)
    · rwa [List.dropWhile_cons_of_neg hp] at h

theorem getLast?_dropWhileChar (p : Char → Bool) (z : List Char)
    (h : z.dropWhile p ≠ []) : (z.dropWhile p).getLast? = z.getLast? := by
  induction z with
  | nil => simp [List.dropWhile] at h
  | cons a t ih =>
    by_cases hp : p a = true
    · rw [List.dropWhile_cons_of_pos hp] at h ⊢
      cases t with
      | nil => simp [List.dropWhile] at h
      | cons b t' => rw [ih h, List.getLast?_cons_cons]
    · rw [List.dropWhile_cons_of_neg hp]

theorem chain'_dropWhileChar {R : Char → Char → Prop} {p : Char → Bool}
    {l : List Char} (h : List.Chain' R l) : List.Chain' R (l.dropWhile p) := by
  induction l with
  | nil => simpa [List.dropWhile] using h
  | cons a t ih =>
    by_cases hp : p a = true
    · rw [List.dropWhile_cons_of_pos hp]
      exact ih ((List.chain'_cons'.mp h).2)
    · rwa [List.dropWhile_cons_of_neg hp]

theorem sprel_symm {a b : Char} (h : SpRel a b) : SpRel b a := Or.symm h

theorem chain'_reverseChar {l : List Char} (h : List.Chain' SpRel l) :
    List.Chain' SpRel l.reverse := by
  rw [List.chain'_reverse]
  exact h.imp fun a b hab => sprel_symm hab

theorem mem_stripChars {c : Char} {l : List Char} (h : c ∈ stripChars l) : c ∈ l := by
  unfold stripChars at h
  rw [List.mem_reverse] at h
  have h1 := mem_of_mem_dropWhileChar h
  rw [List.mem_reverse] at h1
  exact mem_of_mem_dropWhileChar h1

theorem chain'_stripChars {l : List Char} (h : List.Chain' SpRel l) :
    List.Chain' SpRel (stripChars l) := by
  unfold stripChars
  exact chain'_reverseChar (chain'_dropWhileChar (chain'_reverseChar (chain'_dropWhileChar h)))

theorem stripChars_head_not (l : List Char) :
    ∀ c, (stripChars l).head? = some c → isSpaceChar c = false := by
  intro c hc
  unfold stripChars at hc
  rw [List.head?_reverse] at hc
  have hne : (l.dropWhile (isSpaceChar ·)).reverse.dropWhile (isSpaceChar ·) ≠ [] := by
    intro he
    rw [he] at hc
    simp at hc
  rw [getLast?_dropWhileChar _ _ hne, List.getLast?_reverse] at hc
  exact head_dropWhile_not _ _ c hc

theorem stripChars_last_not (l : List Char) :
    ∀ c, (stripChars l).getLast? = some c → isSpaceChar c = false := by
  intro c hc
  unfold stripChars at hc
  rw [List.getLast?_reverse] at hc
  exact head_dropWhile_not _ _ c hc

theorem dropWhile_eq_self_of_headChar {p : Char → Bool} {l : List Char}
    (h : ∀ c, l.head? = some c → p c = false) : l.dropWhile p = l := by
  cases l with
  | nil => rfl
  | cons a t =>
    have := h a rfl
    rw [List.dropWhile_cons_of_neg (by simp [this])]

theorem stripChars_eq_self {l : List Char}
    (hh : ∀ c, l.head? = some c → isSpaceChar c = false)
    (hl : ∀ c, l.getLast? = some c → isSpaceChar c = false) : stripChars l = l := by
  unfold stripChars
  rw [dropWhile_eq_self_of_headChar hh]
  rw [dropWhile_eq_self_of_headChar (by
    intro c hc
    rw [List.head?_reverse] at hc
    exact hl c hc)]
  exact List.reverse_reverse l

theorem map_pyToLower_id {l : List Char} (h : ∀ c ∈ l, pyToLower c = c) :
    l.map pyToLower = l := by
  rw [List.map_congr_left h]
  exact List.map_id' l

theorem flatMap_umlautExpand_id {l : List Char} (h : ∀ c ∈ l, umlautExpand c = [c]) :
    l.flatMap umlautExpand = l := by
  induction l with
  | nil => rfl
  | cons a t ih =>
    rw [List.flatMap_cons, h a (List.mem_cons_self _ _),
      ih fun c hc => h c (List.mem_cons_of_mem _ hc)]
    rfl

theorem subStage_id {l : List Char} (h : ∀ c ∈ l, keepChar c = true) :
    subStage l = l := by
  unfold subStage
  rw [List.map_congr_left fun c hc => by rw [if_pos (h c hc)]]
  exact List.map_id' l

theorem collapseWs_true_eq_false_of_head {m : List Char}
    (h : ∀ c, m.head? = some c → isSpaceChar c = false) :
    collapseWs m true = collapseWs m false := by
  cases m with
  | nil => rfl
  | cons a t =>
    have := h a rfl
    simp only [collapseWs, this, Bool.false_eq_true, if_false]

theorem collapseWs_id {m : List Char}
    (h1 : ∀ c ∈ m, isSpaceChar c = true → c = ' ')
    (h2 : List.Chain' SpRel m) : collapseWs m false = m := by
  induction m with
  | nil => rfl
  | cons a t ih =>
    by_cases hs : isSpaceChar a = true
    · have ha : a = ' ' := h1 a (List.mem_cons_self _ _) hs
      have hHeadT : ∀ c, t.head? = some c → isSpaceChar c = false := by
        intro c hc
        have hr := (List.chain'_cons'.mp h2).1 c hc
        rcases hr with h | h
        · rw [hs] at h; cases h
        · exact h
      simp only [collapseWs, hs, if_true]
      rw [collapseWs_true_eq_false_of_head hHeadT,
        ih (fun c hc hsc => h1 c (List.mem_cons_of_mem _ hc) hsc)
          ((List.chain'_cons'.mp h2).2), ha]
      simp
    · simp only [collapseWs, hs, Bool.false_eq_true, if_false]
      rw [ih (fun c hc hsc => h1 c (List.mem_cons_of_mem _ hc) hsc)
        ((List.chain'_cons'.mp h2).2)]

/-- Full characterization of `normalizeChars` output: every character is
fixed by every stage, whitespace only occurs as isolated single spaces,
and there is no leading or trailing space. -/
theorem normalizeChars_good (l : List Char) :
    (∀ c ∈ normalizeChars l,
        pyToLower c = c ∧ umlautExpand c = [c] ∧ keepChar c = true ∧
          (isSpaceChar c = true → c = ' ')) ∧
      List.Chain' SpRel (normalizeChars l) ∧
      (∀ c, (normalizeChars l).head? = some c → isSpaceChar c = false) ∧
      (∀ c, (normalizeChars l).getLast? = some c → isSpaceChar c = false) := by
  have hsub := mem_subStage_stable _ (mem_expanded_stable (stripChars l))
  have hcoll := mem_collapseWs (subStage (((stripChars l).map pyToLower).flatMap umlautExpand))
  have hchain := (collapseWs_spec
    (subStage (((stripChars l).map pyToLower).flatMap umlautExpand))).2 false
  refine ⟨?_, chain'_stripChars hchain, stripChars_head_not _, stripChars_last_not _⟩
  intro c hc
  have hc' := mem_stripChars hc
  rcases hcoll false c hc' with h | ⟨h1, h2⟩
  · subst h
    exact ⟨by decide, by decide, by decide, fun _ => rfl⟩
  · obtain ⟨hp, hu, hk⟩ := hsub c h1
    exact ⟨hp, hu, hk, fun hsc => by rw [hsc] at h2; cases h2⟩

/-- **C9.** `normalize` is idempotent:
`normalize (normalize x) = normalize x` for every string `x`. -/
theorem normalize_idem (x : String) : normalize (normalize x) = normalize x := by
  show (⟨normalizeChars (normalizeChars x.data)⟩ : String) = ⟨normalizeChars x.data⟩
  obtain ⟨hstable, hchain, hhead, hlast⟩ := normalizeChars_good x.data
  have key : normalizeChars (normalizeChars x.data) = normalizeChars x.data := by
    unfold normalizeChars
    set out := normalizeChars x.data with hout
    rw [show stripChars
        (collapseWs (subStage (((stripChars x.data).map pyToLower).flatMap umlautExpand)) false)
        = out from rfl]
    rw [stripChars_eq_self hhead hlast]
    rw [map_pyToLower_id fun c hc => (hstable c hc).1]
    rw [flatMap_umlautExpand_id fun c hc => (hstable c hc).2.1]
    rw [subStage_id fun c hc => (hstable c hc).2.2.1]
    rw [collapseWs_id (fun c hc => (hstable c hc).2.2.2) hchain]
    exact stripChars_eq_self hhead hlast
  rw [key]

/-! ## Data model and Rubric Scorer (`TextQuestion`, `compute_score`)

Python `float` values (`pass_ratio`, coverage, the `0.85` penalty) are
modelled as exact rationals; `min_words`/`max_repeats` are Python ints,
modelled as `ℤ`.  The dataclass field `example` is called `exampleAnswer`
here because `example` is a Lean keyword. -/

structure TextQuestion where
  id : String
  prompt : String
  rubric : List (List String)
  pass_ratio : ℚ := 7/10
  min_words : ℤ := 20
  max_repeats : ℤ := 999999
  exampleAnswer : String := ""
deriving Repr, DecidableEq

/-- `needle` occurs at the start of `hay`. -/
def leadsWith : List Char → List Char → Bool
  | [], _ => true
  | _ :: _, [] => false
  | n :: ns, h :: hs => n = h && leadsWith ns hs

/-- Python's substring test `needle in hay`. -/
def hasSub (hay needle : List Char) : Bool :=
  leadsWith needle hay ||
    match hay with
    | [] => false
    | _ :: t => hasSub t needle

/-- The inner loop of `rubric_hits_details`: the first phrase of the group
occurring as a substring of the normalized answer, if any. -/
def groupMatch (norm : String) (group : List String) : Option String :=
  group.find? (fun phrase => hasSub norm.data phrase.data)

/-- `rubric_hits_details(rubric, norm_text)` from `src/main.py`:
`(number of hit groups, per-group hit flags, per-group matched phrase)`. -/
def rubric_hits_details (rubric : List (List String)) (norm : String) :
    Nat × List Bool × List (Option String) :=
  let matched := rubric.map (groupMatch norm)
  let hits := matched.map Option.isSome
  (hits.count true, hits, matched)

structure ScoreResult where
  word_count : Nat
  hit_count : Nat
  total : Nat
  coverage : ℚ
  effective : ℚ
  passed : Bool
  length_ok : Bool
  hits : List Bool
  matched : List (Option String)
deriving Repr, DecidableEq

/-- `compute_score(q, user_text)` from `src/main.py`. -/
def compute_score (q : TextQuestion) (user_text : String) : ScoreResult :=
  let norm := normalize user_text
  let wc := word_count norm
  let hcm := rubric_hits_details q.rubric norm
  let total := max q.rubric.length 1
  let coverage : ℚ := (hcm.1 : ℚ) / (total : ℚ)
  let length_ok : Bool := decide ((wc : ℤ) ≥ q.min_words)
  let effective : ℚ := if length_ok then coverage else coverage * (85/100)
  let passed : Bool := decide (effective ≥ q.pass_ratio) && length_ok
  { word_count := wc
    hit_count := hcm.1
    total := total
    coverage := coverage
    effective := effective
    passed := passed
    length_ok := length_ok
    hits := hcm.2.1
    matched := hcm.2.2 }

/-- **C1.** The effective score is the coverage when the normalized answer
reaches `min_words`, and `coverage * 0.85` otherwise; and the score passes
iff the effective score reaches `pass_ratio` **and** the length gate holds,
so an under-length answer never passes. -/
theorem compute_score_effective_passed (q : TextQuestion) (raw : String) :
    (((word_count (normalize raw) : ℤ) ≥ q.min_words) →
        (compute_score q raw).effective = (compute_score q raw).coverage) ∧
      ((¬ ((word_count (normalize raw) : ℤ) ≥ q.min_words)) →
        (compute_score q raw).effective = (compute_score q raw).coverage * (85/100)) ∧
      ((compute_score q raw).passed = true ↔
        ((compute_score q raw).effective ≥ q.pass_ratio ∧
          (word_count (normalize raw) : ℤ) ≥ q.min_words)) := by
  refine ⟨?_, ?_, ?_⟩
  · intro h
    simp only [compute_score, decide_eq_true h, if_true]
  · intro h
    simp only [compute_score, decide_eq_false h, Bool.false_eq_true, if_false]
  · simp only [compute_score, Bool.and_eq_true, decide_eq_true_eq]

/-- Demo question used by concrete witnesses (the rubric of §8 of the spec). -/
def demoQuestion : TextQuestion :=
  { id := "q1"
    prompt := "Gradient?"
    rubric := [["gradient", "slope"], ["derivative"]] }

/-- Witness for C1 at a concrete under-length input: 1 of 2 groups hit and
5 words give effective `1/2 * 0.85` and no pass. -/
theorem compute_score_effective_passed_witness :
    (compute_score demoQuestion "the gradient shows the direction").effective
        = (compute_score demoQuestion "the gradient shows the direction").coverage * (85/100) ∧
      ¬ ((compute_score demoQuestion "the gradient shows the direction").passed = true) :=
  ⟨(compute_score_effective_passed demoQuestion "the gradient shows the direction").2.1
      (by decide),
    fun hp =>
      absurd ((compute_score_effective_passed demoQuestion
        "the gradient shows the direction").2.2.mp hp).2 (by decide)⟩

/-! ## Daily Scheduler (`deck_daily_quota`)

Calendar dates are modelled as day numbers (`ℤ`); `(meta_due - today).days`
is then `due - today`.  `math.ceil` of the true ratio is the exact rational
ceiling. -/

/-- `deck_daily_quota(meta_due, remaining)` from `src/main.py`, with
`date.today()` passed explicitly. -/
def deck_daily_quota (meta_due : Option ℤ) (remaining : ℤ) (today : ℤ) : ℤ :=
  if remaining ≤ 0 then 0
  else
    match meta_due with
    | none => 0
    | some due =>
      let days_left := due - today
      if days_left ≤ 0 then remaining
      else ⌈(remaining : ℚ) / (days_left : ℚ)⌉

/-- **C5.** The daily quota is 0 when nothing remains or no due date is
set; all remaining questions when the deck is due today or overdue; and
`ceil(remaining / daysLeft)` otherwise. -/
theorem deck_daily_quota_spec (due : Option ℤ) (remaining today : ℤ) :
    (remaining ≤ 0 → deck_daily_quota due remaining today = 0) ∧
      (due = none → deck_daily_quota due remaining today = 0) ∧
      (∀ d, due = some d → 0 < remaining → d - today ≤ 0 →
        deck_daily_quota due remaining today = remaining) ∧
      (∀ d, due = some d → 0 < remaining → 0 < d - today →
        deck_daily_quota due remaining today = ⌈(remaining : ℚ) / ((d - today : ℤ) : ℚ)⌉) := by
  refine ⟨?_, ?_, ?_, ?_⟩
  · intro h
    simp only [deck_daily_quota, if_pos h]
  · rintro rfl
    unfold deck_daily_quota
    split
    · rfl
    · rfl
  · rintro d rfl hr hd
    unfold deck_daily_quota
    rw [if_neg (by omega)]
    simp only [if_pos hd]
  · rintro d rfl hr hd
    unfold deck_daily_quota
    rw [if_neg (by omega)]
    simp only [if_neg (by omega : ¬ d - today ≤ 0)]

/-- Witness for C5 at the spec's three worked examples:
due in 4 days with 10 remaining gives 3; due yesterday with 7 remaining
gives 7; no due date with 7 remaining gives 0. -/
theorem deck_daily_quota_spec_witness :
    deck_daily_quota (some 4) 10 0 = 3 ∧
      deck_daily_quota (some (-1)) 7 0 = 7 ∧
      deck_daily_quota none 7 0 = 0 := by
  refine ⟨?_, ?_, ?_⟩
  · rw [(deck_daily_quota_spec (some 4) 10 0).2.2.2 4 rfl (by norm_num) (by norm_num)]
    rw [Int.ceil_eq_iff]
    norm_num
  · exact (deck_daily_quota_spec (some (-1)) 7 0).2.2.1 (-1) rfl (by norm_num) (by norm_num)
  · exact (deck_daily_quota_spec none 7 0).2.1 rfl

/-! ## Deck keys (`deck_key`)

Filesystem paths are modelled as lists of path components, already
resolved (absolute, no `..`); rendering a path joins the components with
`/`, which also models the final `replace("\\", "/")`. -/

/-- Model of `Path.relative_to`: strip `root` as a leading run of
components, or fail. -/
def stripRoot : List String → List String → Option (List String)
  | [], rest => some rest
  | _ :: _, [] => none
  | r :: rs, q :: qs => if r = q then stripRoot rs qs else none

/-- `deck_key(deck_path)` from `src/main.py`: the path relative to the
project root when the deck lies under it, else the absolute path, both
with `/` separators. -/
def deck_key (root p : List String) : String :=
  match stripRoot root p with
  | some rel => String.intercalate "/" rel
  | none => String.intercalate "/" p

theorem stripRoot_append (root rel : List String) :
    stripRoot root (root ++ rel) = some rel := by
  induction root with
  | nil => rfl
  | cons r rs ih => simp [stripRoot, ih]

theorem stripRoot_eq_some {root p rel : List String}
    (h : stripRoot root p = some rel) : p = root ++ rel := by
  induction root generalizing p with
  | nil =>
    simp only [stripRoot, Option.some_inj] at h
    simp [h]
  | cons r rs ih =>
    cases p with
    | nil => simp [stripRoot] at h
    | cons q qs =>
      simp only [stripRoot] at h
      by_cases hrq : r = q
      · rw [if_pos hrq] at h
        rw [List.cons_append, ← hrq, ih h]
      · rw [if_neg hrq] at h
        cases h

/-- **C10.** For a deck under the project root, `deck_key` is the
root-relative path joined with `/`; for a deck outside the project root it
does not fail and silently returns the absolute path joined with `/`. -/
theorem deck_key_spec (root p : List String) :
    (∀ rel, p = root ++ rel → deck_key root p = String.intercalate "/" rel) ∧
      ((¬ ∃ rel, p = root ++ rel) → deck_key root p = String.intercalate "/" p) := by
  constructor
  · rintro rel rfl
    unfold deck_key
    rw [stripRoot_append]
  · intro h
    unfold deck_key
    cases hs : stripRoot root p with
    | none => rfl
    | some rel => exact absurd ⟨rel, stripRoot_eq_some hs⟩ h

/-- Witness for C10: a deck under the root maps to its relative path; a
deck outside the root maps to its absolute path. -/
theorem deck_key_spec_witness :
    deck_key ["home", "proj"] ["home", "proj", "decks", "a.json"] = "decks/a.json" ∧
      deck_key ["home", "proj"] ["tmp", "b.json"] = "tmp/b.json" := by
  constructor
  · rw [(deck_key_spec ["home", "proj"] ["home", "proj", "decks", "a.json"]).1
      ["decks", "a.json"] rfl]
    rfl
  · rw [(deck_key_spec ["home", "proj"] ["tmp", "b.json"]).2 (by
      rintro ⟨rel, h⟩
      injection h with h1 h2
      exact absurd h1 (by decide))]
    rfl

/-! ## Deck Loader (`load_deck`)

Deck files are modelled from the point where `json.load` has produced a
Python value; `PyVal` is the type of such values (JSON floats as exact
rationals).  `str()` of container values and `float()` of strings are
approximated (documented on `pyStr` / `pyFloat`); no claim depends on
them. -/

inductive PyVal where
  | none : PyVal
  | bool (b : Bool) : PyVal
  | int (n : ℤ) : PyVal
  | num (q : ℚ) : PyVal
  | str (s : String) : PyVal
  | list (xs : List PyVal) : PyVal
  | dict (kvs : List (String × PyVal)) : PyVal

/-- Python `d.get(k)`: first binding of the key (dict keys are unique). -/
def dictGet (kvs : List (String × PyVal)) (k : String) : Option PyVal :=
  match kvs with
  | [] => Option.none
  | (k', v) :: rest => if k' = k then some v else dictGet rest k

/-- Python `str(v)`, exact on the scalar values decks actually use
(`str`, `int`, `bool`, `None`); container and float reprs are
approximated by placeholders (no deck field in any claim uses them). -/
def pyStr : PyVal → String
  | .str s => s
  | .int n => toString n
  | .bool true => "True"
  | .bool false => "False"
  | .none => "None"
  | .num _ => "<float>"
  | .list _ => "<list>"
  | .dict _ => "<dict>"

/-- Truncation toward zero, as Python `int(float)`. -/
def ratTrunc (q : ℚ) : ℤ := if 0 ≤ q then ⌊q⌋ else ⌈q⌉

def digitsToNat? (ds : List Char) : Option Nat :=
  if ds.isEmpty then Option.none
  else if ds.all (fun c => 48 ≤ c.toNat && c.toNat ≤ 57) then
    some (ds.foldl (fun a c => a * 10 + (c.toNat - 48)) 0)
  else Option.none

/-- Python `int(s)` on a string: strip whitespace, optional sign, digits
(digit-group underscores are not modelled). -/
def pyIntOfStr (s : String) : Option ℤ :=
  match stripChars s.data with
  | '-' :: ds => (digitsToNat? ds).map (fun n => -(n : ℤ))
  | '+' :: ds => (digitsToNat? ds).map (fun n => (n : ℤ))
  | ds => (digitsToNat? ds).map (fun n => (n : ℤ))

/-- Python `int(v)` on a deck field value. -/
def pyIntOf : PyVal → Except String ℤ
  | .int n => .ok n
  | .bool b => .ok (if b then 1 else 0)
  | .num q => .ok (ratTrunc q)
  | .str s =>
    match pyIntOfStr s with
    | some n => .ok n
    | Option.none => .error "invalid literal for int()"
  | _ => .error "int() argument must be a number"

/-- Python `float(v)` on a deck field value (`float` of a string literal
is not modelled and errors; no claim uses a string `pass_ratio`). -/
def pyFloat : PyVal → Except String ℚ
  | .num q => .ok q
  | .int n => .ok (n : ℚ)
  | .bool b => .ok (if b then 1 else 0)
  | _ => .error "float() argument must be a number"

/-- A rubric group must be a list of strings. -/
def toGroup : PyVal → Option (List String)
  | .list ps => ps.mapM (fun p => match p with | .str s => some s | _ => Option.none)
  | _ => Option.none

/-- The loader's rubric check `isinstance(rubric, list) and
all(isinstance(g, list) and all(isinstance(p, str) for p in g) for g in rubric)`,
returning the typed rubric when it holds.  Note an empty list vacuously
passes. -/
def toRubric : PyVal → Option (List (List String))
  | .list gs => gs.mapM toGroup
  | _ => Option.none

structure DeckMeta where
  title : Option String := Option.none
  due_date : Option (ℤ × ℤ × ℤ) := Option.none
deriving Repr, DecidableEq

def isLeapYear (y : ℤ) : Bool := (y % 4 = 0 && y % 100 ≠ 0) || y % 400 = 0

def daysInMonth (y m : ℤ) : ℤ :=
  if m = 1 || m = 3 || m = 5 || m = 7 || m = 8 || m = 10 || m = 12 then 31
  else if m = 4 || m = 6 || m = 9 || m = 11 then 30
  else if isLeapYear y then 29 else 28

/-- `date(int(y), int(m), int(d))` from `due.strip().split("-")`:
fails unless exactly three `-`-separated integer fields forming a valid
calendar date. -/
def parseDueDate (due : String) : Option (ℤ × ℤ × ℤ) :=
  match (String.mk (stripChars due.data)).splitOn "-" with
  | [y, m, d] =>
    match pyIntOfStr y, pyIntOfStr m, pyIntOfStr d with
    | some yi, some mi, some di =>
      if 1 ≤ yi ∧ yi ≤ 9999 ∧ 1 ≤ mi ∧ mi ≤ 12 ∧ 1 ≤ di ∧ di ≤ daysInMonth yi mi
      then some (yi, mi, di) else Option.none
    | _, _, _ => Option.none
  | _ => Option.none

/-- The `meta` block of the current deck shape: a non-dict `meta` is
silently ignored; a present, non-blank, malformed `due_date` raises. -/
def parseMeta (metaObj : PyVal) : Except String DeckMeta :=
  match metaObj with
  | .dict mkvs =>
    let title : Option String :=
      match dictGet mkvs "title" with
      | some (.str t) =>
        if (stripChars t.data).isEmpty then Option.none
        else some (String.mk (stripChars t.data))
      | _ => Option.none
    match dictGet mkvs "due_date" with
    | some (.str s) =>
      if (stripChars s.data).isEmpty then .ok { title := title }
      else
        match parseDueDate s with
        | some d => .ok { title := title, due_date := some d }
        | Option.none => .error "Invalid meta.due_date (expected YYYY-MM-DD)"
    | _ => .ok { title := title }
  | _ => .ok {}

/-- One `type == "text"` question entry of the loader's loop (`i` is the
0-based position, giving the `q{i+1}` id default). -/
def parseTextQuestion (i : Nat) (kvs : List (String × PyVal)) : Except String TextQuestion :=
  let qid := pyStr ((dictGet kvs "id").getD (.str ("q" ++ toString (i + 1))))
  match dictGet kvs "prompt" with
  | some (.str p) =>
    if (stripChars p.data).isEmpty then .error "missing/invalid prompt"
    else
      match (dictGet kvs "rubric").getD .none with
      | r =>
        match toRubric r with
        | some rubric =>
          match pyFloat ((dictGet kvs "pass_ratio").getD (.num (7/10))) with
          | .error e => .error e
          | .ok pr =>
            match pyIntOf ((dictGet kvs "min_words").getD (.int 20)) with
            | .error e => .error e
            | .ok mw =>
              match pyIntOf ((dictGet kvs "max_repeats").getD (.int 999999)) with
              | .error e => .error e
              | .ok mr =>
                .ok { id := qid
                      prompt := String.mk (stripChars p.data)
                      rubric := rubric
                      pass_ratio := pr
                      min_words := mw
                      max_repeats := mr
                      exampleAnswer :=
                        String.mk (stripChars (pyStr ((dictGet kvs "example").getD (.str ""))).data) }
        | Option.none => .error "missing/invalid rubric"
  | some _ => .error "missing/invalid prompt"
  | Option.none => .error "missing/invalid prompt"

/-- The loop's `obj.get("type") != "text"` test: the entry is a dict whose
`type` field is the string `"text"`. -/
def isTextItem : PyVal → Bool
  | .dict kvs =>
    match dictGet kvs "type" with
    | some (.str t) => t = "text"
    | _ => false
  | _ => false

/-- The entry's rubric fails the loader's check (missing, not a list,
a group not a list, or a non-string phrase).  An empty rubric list does
**not** satisfy this. -/
def itemRubricInvalid : PyVal → Bool
  | .dict kvs =>
    match dictGet kvs "rubric" with
    | some r => (toRubric r).isNone
    | Option.none => true
  | _ => false

/-- The loader's question loop: non-dict entries raise; non-`text` entries
are skipped; `text` entries are validated and collected in order. -/
def parseQuestions : Nat → List PyVal → Except String (List TextQuestion)
  | _, [] => .ok []
  | i, item :: rest =>
    match item with
    | .dict kvs =>
      if isTextItem (.dict kvs) then
        match parseTextQuestion i kvs with
        | .error e => .error e
        | .ok q =>
          match parseQuestions (i + 1) rest with
          | .error e => .error e
          | .ok qs => .ok (q :: qs)
      else parseQuestions (i + 1) rest
    | _ => .error "Question is not an object."

/-- `load_deck` from `src/main.py`, from the parsed JSON value onward
(the missing-file branch raises before any JSON exists and is out of
scope of the claims). -/
def load_deck (raw : PyVal) : Except String (DeckMeta × List TextQuestion) :=
  match raw with
  | .dict kvs =>
    match parseMeta ((dictGet kvs "meta").getD (.dict [])) with
    | .error e => .error e
    | .ok meta =>
      match dictGet kvs "questions" with
      | some (.list items) =>
        match parseQuestions 0 items with
        | .error e => .error e
        | .ok qs =>
          if qs.isEmpty then .error "No text questions found in deck."
          else .ok (meta, qs)
      | _ => .error "Deck JSON: questions must be a list."
  | .list items =>
    match parseQuestions 0 items with
    | .error e => .error e
    | .ok qs =>
      if qs.isEmpty then .error "No text questions found in deck."
      else .ok ({}, qs)
  | _ => .error "Deck JSON must be a list OR an object with meta, questions."

/-- The question entries a deck value carries (for both accepted shapes). -/
def rawItems : PyVal → List PyVal
  | .dict kvs =>
    match dictGet kvs "questions" with
    | some (.list xs) => xs
    | _ => []
  | .list xs => xs
  | _ => []

/-- A text entry whose rubric fails the loader's check always raises
(possibly from the earlier prompt check; either way the load fails). -/
theorem parseTextQuestion_error_of_invalid (i : Nat) (kvs : List (String × PyVal))
    (h : itemRubricInvalid (.dict kvs) = true) :
    ∃ e, parseTextQuestion i kvs = .error e := by
  simp only [itemRubricInvalid] at h
  cases hp : dictGet kvs "prompt" with
  | none => exact ⟨"missing/invalid prompt", by simp only [parseTextQuestion, hp]⟩
  | some v =>
    cases v with
    | str p =>
      by_cases hempty : (stripChars p.data).isEmpty = true
      · exact ⟨"missing/invalid prompt",
          by simp only [parseTextQuestion, hp, hempty, if_true]⟩
      · cases hr : dictGet kvs "rubric" with
        | none =>
          refine ⟨"missing/invalid rubric", ?_⟩
          simp only [parseTextQuestion, hp, hempty, Bool.false_eq_true, if_false, hr,
            Option.getD_none]
          rfl
        | some r =>
          rw [hr] at h
          have h' : (toRubric r).isNone = true := h
          have hnone : toRubric r = Option.none := by
            cases htr : toRubric r with
            | none => rfl
            | some _ => rw [htr] at h'; simp [Option.isNone] at h'
          refine ⟨"missing/invalid rubric", ?_⟩
          simp only [parseTextQuestion, hp, hempty, Bool.false_eq_true, if_false, hr,
            Option.getD_some, hnone]
    | none => exact ⟨"missing/invalid prompt", by simp only [parseTextQuestion, hp]⟩
    | bool b => exact ⟨"missing/invalid prompt", by simp only [parseTextQuestion, hp]⟩
    | int n => exact ⟨"missing/invalid prompt", by simp only [parseTextQuestion, hp]⟩
    | num q => exact ⟨"missing/invalid prompt", by simp only [parseTextQuestion, hp]⟩
    | list xs => exact ⟨"missing/invalid prompt", by simp only [parseTextQuestion, hp]⟩
    | dict d => exact ⟨"missing/invalid prompt", by simp only [parseTextQuestion, hp]⟩

/-- If any entry of the question list is a text question with an invalid
rubric, the loader's loop raises. -/
theorem parseQuestions_error (items : List PyVal) :
    ∀ i, (∃ item ∈ items, isTextItem item = true ∧ itemRubricInvalid item = true) →
      ∃ e, parseQuestions i items = .error e := by
  induction items with
  | nil =>
    rintro i ⟨item, hmem, _⟩
    simp at hmem
  | cons item rest ih =>
    rintro i ⟨bad, hmem, hbadT, hbadR⟩
    cases item with
    | dict kvs =>
      by_cases htext : isTextItem (.dict kvs) = true
      · rcases List.mem_cons.mp hmem with rfl | hm
        · obtain ⟨e, he⟩ := parseTextQuestion_error_of_invalid i kvs hbadR
          exact ⟨e, by simp only [parseQuestions, htext, if_true, he]⟩
        · cases hq : parseTextQuestion i kvs with
          | error e => exact ⟨e, by simp only [parseQuestions, htext, if_true, hq]⟩
          | ok q =>
            obtain ⟨e, he⟩ := ih (i + 1) ⟨bad, hm, hbadT, hbadR⟩
            exact ⟨e, by simp only [parseQuestions, htext, if_true, hq, he]⟩
      · rcases List.mem_cons.mp hmem with rfl | hm
        · exact absurd hbadT htext
        · obtain ⟨e, he⟩ := ih (i + 1) ⟨bad, hm, hbadT, hbadR⟩
          refine ⟨e, ?_⟩
          simp only [parseQuestions, htext, Bool.false_eq_true, if_false]
          exact he
    | none => exact ⟨_, rfl⟩
    | bool b => exact ⟨_, rfl⟩
    | int n => exact ⟨_, rfl⟩
    | num q => exact ⟨_, rfl⟩
    | str s => exact ⟨_, rfl⟩
    | list xs => exact ⟨_, rfl⟩

/-- **C2 (amended).** A deck whose question entries include a text
question whose rubric fails the loader's check (missing, not a list, a
group not a list, or a group with a non-string element) is rejected by
`load_deck` with a format error, so zero questions are produced.  (An
empty rubric list does not fail the check; see the counterexample.) -/
theorem load_deck_invalid_rubric (raw : PyVal)
    (h : ∃ item ∈ rawItems raw, isTextItem item = true ∧ itemRubricInvalid item = true) :
    ∃ e, load_deck raw = .error e := by
  cases raw with
  | dict kvs =>
    cases hm : parseMeta ((dictGet kvs "meta").getD (.dict [])) with
    | error e => exact ⟨e, by simp only [load_deck, hm]⟩
    | ok meta =>
      cases hq : dictGet kvs "questions" with
      | none =>
        exact ⟨"Deck JSON: questions must be a list.", by simp only [load_deck, hm, hq]⟩
      | some v =>
        cases v with
        | list items =>
          simp only [rawItems, hq] at h
          obtain ⟨e, he⟩ := parseQuestions_error items 0 h
          exact ⟨e, by simp only [load_deck, hm, hq, he]⟩
        | none =>
          exact ⟨"Deck JSON: questions must be a list.", by simp only [load_deck, hm, hq]⟩
        | bool b =>
          exact ⟨"Deck JSON: questions must be a list.", by simp only [load_deck, hm, hq]⟩
        | int n =>
          exact ⟨"Deck JSON: questions must be a list.", by simp only [load_deck, hm, hq]⟩
        | num q =>
          exact ⟨"Deck JSON: questions must be a list.", by simp only [load_deck, hm, hq]⟩
        | str s =>
          exact ⟨"Deck JSON: questions must be a list.", by simp only [load_deck, hm, hq]⟩
        | dict d =>
          exact ⟨"Deck JSON: questions must be a list.", by simp only [load_deck, hm, hq]⟩
  | list items =>
    simp only [rawItems] at h
    obtain ⟨e, he⟩ := parseQuestions_error items 0 h
    exact ⟨e, by simp only [load_deck, he]⟩
  | none => simp [rawItems] at h
  | bool b => simp [rawItems] at h
  | int n => simp [rawItems] at h
  | num q => simp [rawItems] at h
  | str s => simp [rawItems] at h

/-- A deck whose only text question has `rubric: []`. -/
def emptyRubricDeck : PyVal :=
  .list [.dict [("type", .str "text"), ("prompt", .str "What?"), ("rubric", .list [])]]

/-- Counterexample to C2 as stated: a text question with an **empty**
rubric list is *not* rejected — `load_deck` succeeds and produces one
question (with zero rubric groups). -/
theorem load_deck_empty_rubric_accepted :
    load_deck emptyRubricDeck =
      .ok ({}, [{ id := "q1", prompt := "What?", rubric := [] }]) := rfl

/-- A text question entry whose rubric group contains the non-string `5`. -/
def badRubricItem : PyVal :=
  .dict [("type", .str "text"), ("prompt", .str "What?"),
    ("rubric", .list [.list [.int 5]])]

def badRubricDeck : PyVal := .list [badRubricItem]

/-- Witness for the amended C2: a deck with a non-string rubric phrase is
rejected with a format error. -/
theorem load_deck_invalid_rubric_witness :
    ∃ e, load_deck badRubricDeck = .error e :=
  load_deck_invalid_rubric badRubricDeck
    ⟨badRubricItem, List.mem_cons_self _ _, rfl, rfl⟩

/-! ## Progress Store (`save_progress` / `load_progress`)

The progress file holds `json.dumps(db, ensure_ascii=False, indent=2)` of
the structure `_persist_question_state` maintains:
`{"version": int, "decks": {dk: {"questions": {qid: record}}}}` with
record fields `mastered, attempts, fails, points, updated_at` in that
insertion order.  Python dicts are insertion-ordered association lists.
`json.dumps`/`json.loads` are modelled character-exactly on this shape,
on the escape-free string fragment (keys without `"`, `\` or control
characters — see `goodKey`); the file system is an explicit
`Option String` (absent, or the file's text). -/

structure QRecord where
  mastered : Bool
  attempts : ℤ
  fails : ℤ
  points : ℤ
  updated_at : ℤ
deriving Repr, DecidableEq

structure DeckEntry where
  questions : List (String × QRecord)
deriving Repr, DecidableEq

structure ProgressDB where
  version : ℤ
  decks : List (String × DeckEntry)
deriving Repr, DecidableEq

/-- The loader's default: `{"version": 1, "decks": {}}`. -/
def defaultProgress : ProgressDB := ⟨1, []⟩

/-! ### The `json.dumps(·, ensure_ascii=False, indent=2)` printer -/

def spacesC (n : Nat) : List Char := List.replicate n ' '

def quoteStr (s : String) : List Char := '"' :: (s.data ++ ['"'])

def printBool (b : Bool) : List Char := if b then "true".data else "false".data

def digitChar (d : Nat) : Char := Char.ofNat (48 + d)

def printNat (n : Nat) : List Char :=
  if n = 0 then ['0'] else (Nat.digits 10 n).reverse.map digitChar

def printInt (i : ℤ) : List Char :=
  if i < 0 then '-' :: printNat i.natAbs else printNat i.toNat

/-- One `"key": value` line at the given indent. -/
def fieldLine (ind : Nat) (k : String) (v : List Char) : List Char :=
  spacesC ind ++ (quoteStr k ++ (':' :: ' ' :: v))

def printQRecord (ind : Nat) (r : QRecord) : List Char :=
  '{' :: '\n' ::
    (fieldLine (ind + 2) "mastered" (printBool r.mastered) ++
      (',' :: '\n' ::
        (fieldLine (ind + 2) "attempts" (printInt r.attempts) ++
          (',' :: '\n' ::
            (fieldLine (ind + 2) "fails" (printInt r.fails) ++
              (',' :: '\n' ::
                (fieldLine (ind + 2) "points" (printInt r.points) ++
                  (',' :: '\n' ::
                    (fieldLine (ind + 2) "updated_at" (printInt r.updated_at) ++
                      ('\n' :: (spacesC ind ++ ['}'])))))))))))

def printItems (ind : Nat) (pr : α → List Char) : List (String × α) → List Char
  | [] => []
  | [(k, v)] => fieldLine ind k (pr v)
  | (k, v) :: rest => fieldLine ind k (pr v) ++ (',' :: '\n' :: printItems ind pr rest)

/-- A JSON object at indent `ind`: `{}` when empty, else entries at
`ind + 2` separated by `",\n"`, closed by a newline and `ind` spaces. -/
def printObj (ind : Nat) (prAt : Nat → α → List Char) (kvs : List (String × α)) :
    List Char :=
  match kvs with
  | [] => ['{', '}']
  | _ :: _ =>
    '{' :: '\n' :: (printItems (ind + 2) (prAt (ind + 2)) kvs ++ ('\n' :: (spacesC ind ++ ['}'])))

def printDeckEntry (ind : Nat) (d : DeckEntry) : List Char :=
  '{' :: '\n' ::
    (fieldLine (ind + 2) "questions" (printObj (ind + 2) printQRecord d.questions) ++
      ('\n' :: (spacesC ind ++ ['}'])))

def printProgressDB (db : ProgressDB) : List Char :=
  '{' :: '\n' ::
    (fieldLine 2 "version" (printInt db.version) ++
      (',' :: '\n' ::
        (fieldLine 2 "decks" (printObj 2 printDeckEntry db.decks) ++
          ('\n' :: ['}']))))

/-- `json.dumps(db, ensure_ascii=False, indent=2)` on the progress shape. -/
def dumpsProgress (db : ProgressDB) : String := String.mk (printProgressDB db)

/-! ### The `json.loads` recursive-descent parser for the same shape -/

def isJsonWs (c : Char) : Bool := c = ' ' || c = '\t' || c = '\n' || c = '\r'

def skipWs (l : List Char) : List Char := l.dropWhile isJsonWs

def isDigitChar (c : Char) : Bool := 48 ≤ c.toNat && c.toNat ≤ 57

def parseNatAux : List Char → Nat → Nat × List Char
  | [], acc => (acc, [])
  | c :: rest, acc =>
    if isDigitChar c then parseNatAux rest (acc * 10 + (c.toNat - 48)) else (acc, c :: rest)

def parseNat (l : List Char) : Option (Nat × List Char) :=
  match l with
  | c :: _ => if isDigitChar c then some (parseNatAux l 0) else Option.none
  | [] => Option.none

def parseInt (l : List Char) : Option (ℤ × List Char) :=
  match l with
  | c :: rest =>
    if c = '-' then (parseNat rest).map (fun p => (-(p.1 : ℤ), p.2))
    else (parseNat (c :: rest)).map (fun p => ((p.1 : ℤ), p.2))
  | [] => Option.none

def expectChar (c : Char) (l : List Char) : Option (List Char) :=
  match skipWs l with
  | d :: rest => if d = c then some rest else Option.none
  | [] => Option.none

def notQuote (c : Char) : Bool := c ≠ '"'

def parseStrTok (l : List Char) : Option (String × List Char) :=
  match skipWs l with
  | '"' :: rest =>
    match rest.dropWhile notQuote with
    | '"' :: rest2 => some (String.mk (rest.takeWhile notQuote), rest2)
    | _ => Option.none
  | _ => Option.none

def parseIntTok (l : List Char) : Option (ℤ × List Char) := parseInt (skipWs l)

def parseBoolTok (l : List Char) : Option (Bool × List Char) :=
  match skipWs l with
  | 't' :: 'r' :: 'u' :: 'e' :: rest => some (true, rest)
  | 'f' :: 'a' :: 'l' :: 's' :: 'e' :: rest => some (false, rest)
  | _ => Option.none

/-- Parse a string key equal to `k`, then the `:`. -/
def expectKey (k : String) (l : List Char) : Option (List Char) := do
  let p ← parseStrTok l
  if p.1 = k then expectChar ':' p.2 else Option.none

def parseKeyBool (k : String) (l : List Char) : Option (Bool × List Char) := do
  parseBoolTok (← expectKey k l)

def parseKeyInt (k : String) (l : List Char) : Option (ℤ × List Char) := do
  parseIntTok (← expectKey k l)

/-- The first three record fields (split to keep the parse chains short). -/
def parseQRecHead (l : List Char) : Option ((Bool × ℤ × ℤ) × List Char) := do
  let pm ← parseKeyBool "mastered" (← expectChar '{' l)
  let pa ← parseKeyInt "attempts" (← expectChar ',' pm.2)
  let pf ← parseKeyInt "fails" (← expectChar ',' pa.2)
  some ((pm.1, pa.1, pf.1), pf.2)

def parseQRecord (l : List Char) : Option (QRecord × List Char) := do
  let h ← parseQRecHead l
  let pp ← parseKeyInt "points" (← expectChar ',' h.2)
  let pu ← parseKeyInt "updated_at" (← expectChar ',' pp.2)
  let r ← expectChar '}' pu.2
  some (⟨h.1.1, h.1.2.1, h.1.2.2, pp.1, pu.1⟩, r)

/-- Entries of an already-opened object, separated by `,`, closed by `}`. -/
def parseEntries (pVal : List Char → Option (α × List Char)) :
    Nat → List Char → Option (List (String × α) × List Char)
  | 0, _ => Option.none
  | fuel + 1, l => do
    let pk ← parseStrTok l
    let pv ← pVal (← expectChar ':' pk.2)
    match skipWs pv.2 with
    | ',' :: r4 => do
      let pr ← parseEntries pVal fuel r4
      some ((pk.1, pv.1) :: pr.1, pr.2)
    | '}' :: r4 => some ([(pk.1, pv.1)], r4)
    | _ => Option.none

def parseObj (pVal : List Char → Option (α × List Char)) (l : List Char) :
    Option (List (String × α) × List Char) := do
  let r0 ← expectChar '{' l
  match skipWs r0 with
  | '}' :: r1 => some ([], r1)
  | _ => parseEntries pVal (r0.length + 1) r0

def parseDeckEntry (l : List Char) : Option (DeckEntry × List Char) := do
  let r1 ← expectKey "questions" (← expectChar '{' l)
  let pq ← parseObj parseQRecord r1
  let r3 ← expectChar '}' pq.2
  some (⟨pq.1⟩, r3)

/-- The `"version"` field (split to keep the parse chains short). -/
def parseDBHead (l : List Char) : Option (ℤ × List Char) := do
  let pv ← parseIntTok (← expectKey "version" (← expectChar '{' l))
  let r3 ← expectChar ',' pv.2
  some (pv.1, r3)

def parseProgressDB (l : List Char) : Option (ProgressDB × List Char) := do
  let ph ← parseDBHead l
  let pd ← parseObj parseDeckEntry (← expectKey "decks" ph.2)
  let r6 ← expectChar '}' pd.2
  some (⟨ph.1, pd.1⟩, r6)

/-- `json.loads` on the progress shape; trailing garbage is an error. -/
def loadsProgress (s : String) : Option ProgressDB :=
  match parseProgressDB s.data with
  | some (db, rest) => if (skipWs rest).isEmpty then some db else Option.none
  | Option.none => Option.none

/-- `load_progress()` from `src/main.py`: missing file or a parse failure
degrade to the empty default (never an exception). -/
def load_progress (fileState : Option String) : ProgressDB :=
  match fileState with
  | Option.none => defaultProgress
  | some s => (loadsProgress s).getD defaultProgress

/-- `save_progress(db)` from `src/main.py`: rewrite the whole file with
the serialized snapshot. -/
def save_progress (db : ProgressDB) (fileState : Option String) : Option String :=
  some (dumpsProgress db)

/-- Strings `json.dumps` emits verbatim (no `"`, `\` or control chars). -/
def goodKeyChar (c : Char) : Bool := c ≠ '"' && c ≠ '\\' && 32 ≤ c.toNat

def goodKey (s : String) : Bool := s.data.all goodKeyChar

/-- A well-formed progress database: every deck key and question id is in
the escape-free fragment. -/
def WellFormedDB (db : ProgressDB) : Prop :=
  ∀ kd ∈ db.decks, goodKey kd.1 = true ∧ ∀ qr ∈ kd.2.questions, goodKey qr.1 = true

/-! ### Round trip: the parser reads back what the printer wrote -/

def WsList (w : List Char) : Prop := ∀ c ∈ w, isJsonWs c = true

theorem wsList_append {w1 w2 : List Char} (h1 : WsList w1) (h2 : WsList w2) :
    WsList (w1 ++ w2) := by
  intro c hc
  rcases List.mem_append.mp hc with h | h
  · exact h1 c h
  · exact h2 c h

theorem skipWs_append_ws : ∀ (w : List Char), WsList w → ∀ l, skipWs (w ++ l) = skipWs l := by
  intro w
  induction w with
  | nil => intro _ l; rfl
  | cons c cs ih =>
    intro hw l
    rw [List.cons_append]
    show (c :: (cs ++ l)).dropWhile isJsonWs = skipWs l
    rw [List.dropWhile_cons_of_pos (hw c (List.mem_cons_self _ _))]
    exact ih (fun d hd => hw d (List.mem_cons_of_mem _ hd)) l

theorem skipWs_cons_not {c : Char} (hc : isJsonWs c = false) (l : List Char) :
    skipWs (c :: l) = c :: l := by
  unfold skipWs
  rw [List.dropWhile_cons_of_neg (by simp [hc])]

theorem spacesC_ws (n : Nat) : WsList (spacesC n) := by
  intro c hc
  unfold spacesC at hc
  rw [List.eq_of_mem_replicate hc]
  rfl

theorem span_quote (xs : List Char) (h : ∀ x ∈ xs, notQuote x = true) (rest : List Char) :
    (xs ++ '"' :: rest).takeWhile notQuote = xs ∧
      (xs ++ '"' :: rest).dropWhile notQuote = '"' :: rest := by
  induction xs with
  | nil =>
    constructor
    · rw [List.nil_append, List.takeWhile_cons_of_neg (by decide)]
    · rw [List.nil_append, List.dropWhile_cons_of_neg (by decide)]
  | cons x xs ih =>
    have hx := h x (List.mem_cons_self _ _)
    have ih' := ih (fun y hy => h y (List.mem_cons_of_mem _ hy))
    constructor
    · rw [List.cons_append, List.takeWhile_cons_of_pos hx, ih'.1]
    · rw [List.cons_append, List.dropWhile_cons_of_pos hx, ih'.2]

theorem goodKey_notQuote {s : String} (hs : goodKey s = true) :
    ∀ x ∈ s.data, notQuote x = true := by
  intro x hx
  unfold goodKey at hs
  rw [List.all_eq_true] at hs
  have h := hs x hx
  unfold goodKeyChar at h
  simp only [Bool.and_eq_true] at h
  exact h.1.1

theorem mk_data_eq (s : String) : String.mk s.data = s := rfl

theorem parseStrTok_parses (s : String) (hs : goodKey s = true) (w : List Char)
    (hw : WsList w) (rest : List Char) :
    parseStrTok (w ++ (quoteStr s ++ rest)) = some (s, rest) := by
  unfold parseStrTok
  rw [skipWs_append_ws w hw]
  have hq : quoteStr s ++ rest = '"' :: (s.data ++ '"' :: rest) := by
    unfold quoteStr
    simp [List.append_assoc]
  rw [hq, skipWs_cons_not (by decide)]
  have hspan := span_quote s.data (goodKey_notQuote hs) rest
  simp only [hspan.1, hspan.2, mk_data_eq]

/-! digits -/

theorem digitChar_toNat {d : Nat} (hd : d < 10) : (digitChar d).toNat = 48 + d := by
  unfold digitChar
  exact toNat_ofNat_valid _ (by left; omega)

theorem isDigitChar_digitChar {d : Nat} (hd : d < 10) : isDigitChar (digitChar d) = true := by
  unfold isDigitChar
  rw [digitChar_toNat hd]
  simp only [Bool.and_eq_true, decide_eq_true_eq]
  omega

theorem parseNatAux_stop (l : List Char) (acc : Nat)
    (hl : ∀ c, l.head? = some c → isDigitChar c = false) :
    parseNatAux l acc = (acc, l) := by
  cases l with
  | nil => rfl
  | cons c rest =>
    show (if isDigitChar c then parseNatAux rest (acc * 10 + (c.toNat - 48)) else (acc, c :: rest))
      = (acc, c :: rest)
    rw [hl c rfl]
    simp

theorem parseNatAux_map (ds : List Nat) :
    ∀ acc (rest : List Char), (∀ d ∈ ds, d < 10) →
      (∀ c, rest.head? = some c → isDigitChar c = false) →
      parseNatAux (ds.map digitChar ++ rest) acc =
        (ds.foldl (fun a d => a * 10 + d) acc, rest) := by
  induction ds with
  | nil => intro acc rest _ hrest; exact parseNatAux_stop rest acc hrest
  | cons d ds ih =>
    intro acc rest hds hrest
    have hd := hds d (List.mem_cons_self _ _)
    rw [List.map_cons, List.cons_append]
    show (if isDigitChar (digitChar d) then
        parseNatAux (ds.map digitChar ++ rest) (acc * 10 + ((digitChar d).toNat - 48))
      else (acc, digitChar d :: (ds.map digitChar ++ rest)))
      = ((d :: ds).foldl (fun a x => a * 10 + x) acc, rest)
    rw [isDigitChar_digitChar hd, digitChar_toNat hd, if_pos rfl]
    have he : 48 + d - 48 = d := by omega
    rw [he, List.foldl_cons]
    exact ih (acc * 10 + d) rest (fun x hx => hds x (List.mem_cons_of_mem _ hx)) hrest

theorem foldl_digits_rev (ds : List Nat) :
    ∀ acc, ds.reverse.foldl (fun a d => a * 10 + d) acc
      = acc * 10 ^ ds.length + Nat.ofDigits 10 ds := by
  induction ds with
  | nil => intro acc; simp [Nat.ofDigits_nil]
  | cons d ds ih =>
    intro acc
    rw [List.reverse_cons, List.foldl_append]
    simp only [List.foldl_cons, List.foldl_nil]
    rw [ih acc, Nat.ofDigits_cons, List.length_cons, pow_succ]
    ring

theorem printNat_shape (n : Nat) :
    ∃ d ds, d < 10 ∧ (∀ x ∈ ds, x < 10) ∧ printNat n = (d :: ds).map digitChar ∧
      (d :: ds).foldl (fun a x => a * 10 + x) 0 = n := by
  by_cases h0 : n = 0
  · subst h0
    refine ⟨0, [], by omega, by simp, ?_, rfl⟩
    decide
  · have hne : Nat.digits 10 n ≠ [] := Nat.digits_ne_nil_iff_ne_zero.mpr h0
    have hdsne : (Nat.digits 10 n).reverse ≠ [] := by
      intro he
      exact hne (by simpa using congrArg List.reverse he)
    obtain ⟨d, ds', hcons⟩ := List.exists_cons_of_ne_nil hdsne
    have hmem : ∀ x ∈ (Nat.digits 10 n).reverse, x < 10 := by
      intro x hx
      exact Nat.digits_lt_base (by norm_num) (List.mem_reverse.mp hx)
    refine ⟨d, ds', ?_, ?_, ?_, ?_⟩
    · exact hmem d (by rw [hcons]; exact List.mem_cons_self _ _)
    · intro x hx
      exact hmem x (by rw [hcons]; exact List.mem_cons_of_mem _ hx)
    · unfold printNat
      rw [if_neg h0, hcons]
    · rw [← hcons, foldl_digits_rev]
      simp [Nat.ofDigits_digits]

theorem parseNat_print (n : Nat) (rest : List Char)
    (hrest : ∀ c, rest.head? = some c → isDigitChar c = false) :
    parseNat (printNat n ++ rest) = some (n, rest) := by
  obtain ⟨d, ds, hd, hds, hprint, hfold⟩ := printNat_shape n
  have hall : ∀ x ∈ d :: ds, x < 10 := by
    intro x hx
    rcases List.mem_cons.mp hx with rfl | h
    · exact hd
    · exact hds x h
  rw [hprint, List.map_cons, List.cons_append]
  show (if isDigitChar (digitChar d) then
      some (parseNatAux (digitChar d :: (ds.map digitChar ++ rest)) 0)
    else Option.none) = some (n, rest)
  rw [isDigitChar_digitChar hd, if_pos rfl]
  rw [show digitChar d :: (ds.map digitChar ++ rest) = (d :: ds).map digitChar ++ rest by
    rw [List.map_cons, List.cons_append]]
  rw [parseNatAux_map (d :: ds) 0 rest hall hrest, hfold]

theorem isJsonWs_eq_false_of_digit {c : Char} (h : isDigitChar c = true) :
    isJsonWs c = false := by
  simp only [isDigitChar, Bool.and_eq_true, decide_eq_true_eq] at h
  have hs : c ≠ ' ' := fun he => by rw [he] at h; exact absurd h (by decide)
  have ht : c ≠ '\t' := fun he => by rw [he] at h; exact absurd h (by decide)
  have hn : c ≠ '\n' := fun he => by rw [he] at h; exact absurd h (by decide)
  have hr : c ≠ '\r' := fun he => by rw [he] at h; exact absurd h (by decide)
  simp [isJsonWs, hs, ht, hn, hr]

theorem parseInt_print (i : ℤ) (rest : List Char)
    (hrest : ∀ c, rest.head? = some c → isDigitChar c = false) :
    parseInt (printInt i ++ rest) = some (i, rest) := by
  by_cases hi : i < 0
  · unfold printInt
    rw [if_pos hi, List.cons_append]
    show (if '-' = '-' then
        (parseNat (printNat i.natAbs ++ rest)).map (fun p => (-(p.1 : ℤ), p.2))
      else (parseNat ('-' :: (printNat i.natAbs ++ rest))).map (fun p => ((p.1 : ℤ), p.2)))
      = some (i, rest)
    rw [if_pos rfl, parseNat_print i.natAbs rest hrest]
    have he : -((i.natAbs : ℤ)) = i := by omega
    show some (-((i.natAbs : ℤ)), rest) = some (i, rest)
    rw [he]
  · unfold printInt
    rw [if_neg hi]
    obtain ⟨d, ds, hd, hds, hprint, hfold⟩ := printNat_shape i.toNat
    rw [hprint, List.map_cons, List.cons_append]
    have hne : digitChar d ≠ '-' := by
      have h1 := digitChar_toNat hd
      intro he
      rw [he] at h1
      have h2 : ('-').toNat = 45 := by decide
      omega
    show (if digitChar d = '-' then
        (parseNat (ds.map digitChar ++ rest)).map (fun p => (-(p.1 : ℤ), p.2))
      else (parseNat (digitChar d :: (ds.map digitChar ++ rest))).map
        (fun p => ((p.1 : ℤ), p.2)))
      = some (i, rest)
    rw [if_neg hne]
    rw [show digitChar d :: (ds.map digitChar ++ rest) = printNat i.toNat ++ rest by
      rw [hprint, List.map_cons, List.cons_append]]
    rw [parseNat_print i.toNat rest hrest]
    have he : ((i.toNat : ℤ)) = i := Int.toNat_of_nonneg (by omega)
    show some (((i.toNat : ℤ)), rest) = some (i, rest)
    rw [he]

theorem skipWs_printInt (i : ℤ) (rest : List Char) :
    skipWs (printInt i ++ rest) = printInt i ++ rest := by
  by_cases hi : i < 0
  · unfold printInt
    rw [if_pos hi, List.cons_append, skipWs_cons_not (by decide)]
  · unfold printInt
    rw [if_neg hi]
    obtain ⟨d, ds, hd, _, hprint, _⟩ := printNat_shape i.toNat
    rw [hprint, List.map_cons, List.cons_append,
      skipWs_cons_not (isJsonWs_eq_false_of_digit (isDigitChar_digitChar hd))]

theorem parseIntTok_print (i : ℤ) (w : List Char) (hw : WsList w) (rest : List Char)
    (hrest : ∀ c, rest.head? = some c → isDigitChar c = false) :
    parseIntTok (w ++ (printInt i ++ rest)) = some (i, rest) := by
  unfold parseIntTok
  rw [skipWs_append_ws w hw, skipWs_printInt]
  exact parseInt_print i rest hrest

theorem parseBoolTok_print (b : Bool) (w : List Char) (hw : WsList w) (rest : List Char) :
    parseBoolTok (w ++ (printBool b ++ rest)) = some (b, rest) := by
  cases b
  · unfold parseBoolTok printBool
    rw [skipWs_append_ws w hw]
    rw [show ((if false = true then "true".data else "false".data) ++ rest)
      = 'f' :: 'a' :: 'l' :: 's' :: 'e' :: rest from rfl]
    rw [skipWs_cons_not (by decide)]
    rfl
  · unfold parseBoolTok printBool
    rw [skipWs_append_ws w hw]
    rw [show ((if true = true then "true".data else "false".data) ++ rest)
      = 't' :: 'r' :: 'u' :: 'e' :: rest from rfl]
    rw [skipWs_cons_not (by decide)]
    rfl

theorem expectChar_parses (c : Char) (hc : isJsonWs c = false) (w : List Char)
    (hw : WsList w) (rest : List Char) :
    expectChar c (w ++ c :: rest) = some rest := by
  unfold expectChar
  rw [skipWs_append_ws w hw, skipWs_cons_not hc]
  simp

theorem wsList_nil : WsList [] := fun c hc => absurd hc (List.not_mem_nil c)

theorem wsList_single {c : Char} (h : isJsonWs c = true) : WsList [c] := by
  intro d hd
  rw [List.mem_singleton] at hd
  subst hd
  exact h

theorem expectKey_parses (k : String) (hk : goodKey k = true) (w : List Char)
    (hw : WsList w) (rest : List Char) :
    expectKey k (w ++ (quoteStr k ++ ':' :: rest)) = some rest := by
  unfold expectKey
  rw [parseStrTok_parses k hk w hw (':' :: rest)]
  show (if k = k then expectChar ':' (':' :: rest) else Option.none) = some rest
  rw [if_pos rfl]
  exact expectChar_parses ':' (by decide) [] wsList_nil rest

theorem parseKeyBool_parses (ind : Nat) (k : String) (hk : goodKey k = true) (b : Bool)
    (w : List Char) (hw : WsList w) (tail : List Char) :
    parseKeyBool k (w ++ (fieldLine ind k (printBool b) ++ tail)) = some (b, tail) := by
  unfold parseKeyBool fieldLine
  have hshape : w ++ ((spacesC ind ++ (quoteStr k ++ (':' :: ' ' :: printBool b))) ++ tail)
      = (w ++ spacesC ind) ++ (quoteStr k ++ ':' :: (' ' :: (printBool b ++ tail))) := by
    simp [List.append_assoc]
  rw [hshape]
  rw [expectKey_parses k hk (w ++ spacesC ind) (wsList_append hw (spacesC_ws ind))
    (' ' :: (printBool b ++ tail))]
  show parseBoolTok (' ' :: (printBool b ++ tail)) = some (b, tail)
  exact parseBoolTok_print b [' '] (wsList_single (by decide)) tail

theorem parseKeyInt_parses (ind : Nat) (k : String) (hk : goodKey k = true) (i : ℤ)
    (w : List Char) (hw : WsList w) (tail : List Char)
    (htail : ∀ c, tail.head? = some c → isDigitChar c = false) :
    parseKeyInt k (w ++ (fieldLine ind k (printInt i) ++ tail)) = some (i, tail) := by
  unfold parseKeyInt fieldLine
  have hshape : w ++ ((spacesC ind ++ (quoteStr k ++ (':' :: ' ' :: printInt i))) ++ tail)
      = (w ++ spacesC ind) ++ (quoteStr k ++ ':' :: (' ' :: (printInt i ++ tail))) := by
    simp [List.append_assoc]
  rw [hshape]
  rw [expectKey_parses k hk (w ++ spacesC ind) (wsList_append hw (spacesC_ws ind))
    (' ' :: (printInt i ++ tail))]
  show parseIntTok (' ' :: (printInt i ++ tail)) = some (i, tail)
  exact parseIntTok_print i [' '] (wsList_single (by decide)) tail htail

theorem wsList_cons {c : Char} {w : List Char} (hc : isJsonWs c = true)
    (hw : WsList w) : WsList (c :: w) := by
  intro d hd
  rcases List.mem_cons.mp hd with rfl | h
  · exact hc
  · exact hw d h

theorem parseQRecord_parses (ind : Nat) (r : QRecord) (w : List Char) (hw : WsList w)
    (rest : List Char) :
    parseQRecord (w ++ (printQRecord ind r ++ rest)) = some (r, rest) := by
  obtain ⟨m, a, f, p, u⟩ := r
  set t5 : List Char := '\n' :: (spacesC ind ++ '}' :: rest) with ht5
  set b5 : List Char := fieldLine (ind + 2) "updated_at" (printInt u) ++ t5 with hb5
  set t4 : List Char := ',' :: '\n' :: b5 with ht4
  set b4 : List Char := fieldLine (ind + 2) "points" (printInt p) ++ t4 with hb4
  set t3 : List Char := ',' :: '\n' :: b4 with ht3
  set b3 : List Char := fieldLine (ind + 2) "fails" (printInt f) ++ t3 with hb3
  set t2 : List Char := ',' :: '\n' :: b3 with ht2
  set b2 : List Char := fieldLine (ind + 2) "attempts" (printInt a) ++ t2 with hb2
  set t1 : List Char := ',' :: '\n' :: b2 with ht1
  set b1 : List Char := fieldLine (ind + 2) "mastered" (printBool m) ++ t1 with hb1
  have hnorm : printQRecord ind ⟨m, a, f, p, u⟩ ++ rest = '{' :: '\n' :: b1 := by
    simp only [printQRecord, hb1, ht1, hb2, ht2, hb3, ht3, hb4, ht4, hb5, ht5,
      List.append_assoc, List.cons_append, List.singleton_append, List.nil_append]
  have e0 : expectChar '{' (w ++ (printQRecord ind ⟨m, a, f, p, u⟩ ++ rest))
      = some ('\n' :: b1) := by
    rw [hnorm]
    exact expectChar_parses '{' (by decide) w hw ('\n' :: b1)
  have e1 : parseKeyBool "mastered" ('\n' :: b1) = some (m, t1) := by
    rw [hb1]
    exact parseKeyBool_parses (ind + 2) "mastered" (by decide) m ['\n']
      (wsList_single (by decide)) t1
  have e2 : expectChar ',' t1 = some ('\n' :: b2) := by
    rw [ht1]
    exact expectChar_parses ',' (by decide) [] wsList_nil ('\n' :: b2)
  have e3 : parseKeyInt "attempts" ('\n' :: b2) = some (a, t2) := by
    rw [hb2]
    refine parseKeyInt_parses (ind + 2) "attempts" (by decide) a ['\n']
      (wsList_single (by decide)) t2 ?_
    intro c hc
    rw [ht2] at hc
    rw [List.head?_cons, Option.some_inj] at hc
    subst hc
    decide
  have e4 : expectChar ',' t2 = some ('\n' :: b3) := by
    rw [ht2]
    exact expectChar_parses ',' (by decide) [] wsList_nil ('\n' :: b3)
  have e5 : parseKeyInt "fails" ('\n' :: b3) = some (f, t3) := by
    rw [hb3]
    refine parseKeyInt_parses (ind + 2) "fails" (by decide) f ['\n']
      (wsList_single (by decide)) t3 ?_
    intro c hc
    rw [ht3] at hc
    rw [List.head?_cons, Option.some_inj] at hc
    subst hc
    decide
  have e6 : expectChar ',' t3 = some ('\n' :: b4) := by
    rw [ht3]
    exact expectChar_parses ',' (by decide) [] wsList_nil ('\n' :: b4)
  have e7 : parseKeyInt "points" ('\n' :: b4) = some (p, t4) := by
    rw [hb4]
    refine parseKeyInt_parses (ind + 2) "points" (by decide) p ['\n']
      (wsList_single (by decide)) t4 ?_
    intro c hc
    rw [ht4] at hc
    rw [List.head?_cons, Option.some_inj] at hc
    subst hc
    decide
  have e8 : expectChar ',' t4 = some ('\n' :: b5) := by
    rw [ht4]
    exact expectChar_parses ',' (by decide) [] wsList_nil ('\n' :: b5)
  have e9 : parseKeyInt "updated_at" ('\n' :: b5) = some (u, t5) := by
    rw [hb5]
    refine parseKeyInt_parses (ind + 2) "updated_at" (by decide) u ['\n']
      (wsList_single (by decide)) t5 ?_
    intro c hc
    rw [ht5] at hc
    rw [List.head?_cons, Option.some_inj] at hc
    subst hc
    decide
  have e10 : expectChar '}' t5 = some rest := by
    rw [ht5]
    exact expectChar_parses '}' (by decide) ('\n' :: spacesC ind)
      (wsList_cons (by decide) (spacesC_ws ind)) rest
  unfold parseQRecord parseQRecHead
  rw [e0]
  simp only [Option.bind_eq_bind, Option.some_bind]
  rw [e1]
  simp only [Option.bind_eq_bind, Option.some_bind]
  rw [e2]
  simp only [Option.bind_eq_bind, Option.some_bind]
  rw [e3]
  simp only [Option.bind_eq_bind, Option.some_bind]
  rw [e4]
  simp only [Option.bind_eq_bind, Option.some_bind]
  rw [e5]
  simp only [Option.bind_eq_bind, Option.some_bind]
  rw [e6]
  simp only [Option.bind_eq_bind, Option.some_bind]
  rw [e7]
  simp only [Option.bind_eq_bind, Option.some_bind]
  rw [e8]
  simp only [Option.bind_eq_bind, Option.some_bind]
  rw [e9]
  simp only [Option.bind_eq_bind, Option.some_bind]
  rw [e10]
  simp only [Option.bind_eq_bind, Option.some_bind]

theorem fieldLine_length_pos (ind : Nat) (k : String) (v : List Char) :
    0 < (fieldLine ind k v).length := by
  simp [fieldLine, quoteStr, List.length_append]

theorem printItems_length_ge {α : Type} (pr : α → List Char) (ind : Nat) :
    ∀ kvs : List (String × α), kvs ≠ [] → kvs.length ≤ (printItems ind pr kvs).length := by
  intro kvs
  induction kvs with
  | nil => intro h; exact absurd rfl h
  | cons kv tl ih =>
    intro _
    cases tl with
    | nil =>
      obtain ⟨k, v⟩ := kv
      simp only [printItems, List.length_cons, List.length_nil]
      have := fieldLine_length_pos ind k (pr v)
      omega
    | cons kv2 tl2 =>
      obtain ⟨k, v⟩ := kv
      obtain ⟨k2, v2⟩ := kv2
      simp only [printItems, List.length_append, List.length_cons]
      have h1 := fieldLine_length_pos ind k (pr v)
      have h2 := ih (by simp)
      simp only [List.length_cons] at h2
      omega

theorem parseEntries_parses {α : Type} (pVal : List Char → Option (α × List Char))
    (pr : α → List Char) :
    ∀ (kvs : List (String × α)), kvs ≠ [] →
      (∀ kv ∈ kvs, goodKey kv.1 = true) →
      (∀ kv ∈ kvs, ∀ (w : List Char), WsList w → ∀ tail,
        pVal (w ++ (pr kv.2 ++ tail)) = some (kv.2, tail)) →
      ∀ (ind : Nat) (w : List Char), WsList w → ∀ (clo rest : List Char), WsList clo →
        ∀ fuel, kvs.length ≤ fuel →
          parseEntries pVal fuel
              (w ++ (printItems ind pr kvs ++ ('\n' :: (clo ++ '}' :: rest))))
            = some (kvs, rest) := by
  intro kvs
  induction kvs with
  | nil => intro h; exact absurd rfl h
  | cons kv tl ih =>
    intro _ hkeys hVal ind w hw clo rest hclo fuel hfuel
    obtain ⟨k, v⟩ := kv
    cases fuel with
    | zero => simp at hfuel
    | succ fu =>
      have hk : goodKey k = true := hkeys (k, v) (List.mem_cons_self _ _)
      have hv := hVal (k, v) (List.mem_cons_self _ _)
      cases tl with
      | nil =>
        have hshape : w ++ (printItems ind pr [(k, v)] ++ ('\n' :: (clo ++ '}' :: rest)))
            = (w ++ spacesC ind) ++
              (quoteStr k ++ ':' :: (' ' :: (pr v ++ ('\n' :: (clo ++ '}' :: rest))))) := by
          simp only [printItems, fieldLine, List.append_assoc, List.cons_append,
            List.singleton_append, List.nil_append]
        rw [hshape]
        show parseEntries pVal (fu + 1) _ = _
        simp only [parseEntries]
        rw [parseStrTok_parses k hk (w ++ spacesC ind) (wsList_append hw (spacesC_ws ind))
          (':' :: (' ' :: (pr v ++ ('\n' :: (clo ++ '}' :: rest)))))]
        simp only [Option.bind_eq_bind, Option.some_bind]
        have hcol : expectChar ':' (':' :: (' ' :: (pr v ++ ('\n' :: (clo ++ '}' :: rest)))))
            = some (' ' :: (pr v ++ ('\n' :: (clo ++ '}' :: rest)))) :=
          expectChar_parses ':' (by decide) [] wsList_nil _
        rw [hcol]
        simp only [Option.bind_eq_bind, Option.some_bind]
        have hval' : pVal (' ' :: (pr v ++ ('\n' :: (clo ++ '}' :: rest))))
            = some (v, '\n' :: (clo ++ '}' :: rest)) :=
          hv [' '] (wsList_single (by decide)) ('\n' :: (clo ++ '}' :: rest))
        rw [hval']
        simp only [Option.bind_eq_bind, Option.some_bind]
        have hskip : skipWs ('\n' :: (clo ++ '}' :: rest)) = '}' :: rest := by
          rw [show ('\n' :: (clo ++ '}' :: rest)) = ('\n' :: clo) ++ '}' :: rest from by simp,
            skipWs_append_ws ('\n' :: clo) (wsList_cons (by decide) hclo),
            skipWs_cons_not (by decide)]
        rw [hskip]
        rfl
      | cons kv2 tl2 =>
        have hshape : w ++ (printItems ind pr ((k, v) :: kv2 :: tl2) ++
              ('\n' :: (clo ++ '}' :: rest)))
            = (w ++ spacesC ind) ++ (quoteStr k ++ ':' :: (' ' :: (pr v ++
                (',' :: '\n' :: (printItems ind pr (kv2 :: tl2) ++
                  ('\n' :: (clo ++ '}' :: rest))))))) := by
          simp only [printItems, fieldLine, List.append_assoc, List.cons_append,
            List.singleton_append, List.nil_append]
        rw [hshape]
        show parseEntries pVal (fu + 1) _ = _
        simp only [parseEntries]
        rw [parseStrTok_parses k hk (w ++ spacesC ind) (wsList_append hw (spacesC_ws ind))
          (':' :: (' ' :: (pr v ++ (',' :: '\n' :: (printItems ind pr (kv2 :: tl2) ++
            ('\n' :: (clo ++ '}' :: rest)))))))]
        simp only [Option.bind_eq_bind, Option.some_bind]
        have hcol : expectChar ':' (':' :: (' ' :: (pr v ++ (',' :: '\n' ::
              (printItems ind pr (kv2 :: tl2) ++ ('\n' :: (clo ++ '}' :: rest)))))))
            = some (' ' :: (pr v ++ (',' :: '\n' :: (printItems ind pr (kv2 :: tl2) ++
                ('\n' :: (clo ++ '}' :: rest)))))) :=
          expectChar_parses ':' (by decide) [] wsList_nil _
        rw [hcol]
        simp only [Option.bind_eq_bind, Option.some_bind]
        have hval' : pVal (' ' :: (pr v ++ (',' :: '\n' :: (printItems ind pr (kv2 :: tl2) ++
              ('\n' :: (clo ++ '}' :: rest))))))
            = some (v, ',' :: '\n' :: (printItems ind pr (kv2 :: tl2) ++
                ('\n' :: (clo ++ '}' :: rest)))) :=
          hv [' '] (wsList_single (by decide)) _
        rw [hval']
        simp only [Option.bind_eq_bind, Option.some_bind]
        rw [skipWs_cons_not (by decide)]
        have hrec : parseEntries pVal fu ('\n' :: (printItems ind pr (kv2 :: tl2) ++
            ('\n' :: (clo ++ '}' :: rest)))) = some (kv2 :: tl2, rest) :=
          ih (by simp) (fun x hx => hkeys x (List.mem_cons_of_mem _ hx))
            (fun x hx => hVal x (List.mem_cons_of_mem _ hx)) ind ['\n']
            (wsList_single (by decide)) clo rest hclo fu (by
              simp only [List.length_cons] at hfuel ⊢
              omega)
        show (parseEntries pVal fu ('\n' :: (printItems ind pr (kv2 :: tl2) ++
            ('\n' :: (clo ++ '}' :: rest))))).bind
            (fun a => some ((k, v) :: a.1, a.2)) = some ((k, v) :: kv2 :: tl2, rest)
        rw [hrec]
        rfl

theorem parseObj_parses {α : Type} (pVal : List Char → Option (α × List Char))
    (prAt : Nat → α → List Char) (ind : Nat) (kvs : List (String × α))
    (hkeys : ∀ kv ∈ kvs, goodKey kv.1 = true)
    (hVal : ∀ kv ∈ kvs, ∀ (w : List Char), WsList w → ∀ tail,
      pVal (w ++ (prAt (ind + 2) kv.2 ++ tail)) = some (kv.2, tail))
    (w : List Char) (hw : WsList w) (rest : List Char) :
    parseObj pVal (w ++ (printObj ind prAt kvs ++ rest)) = some (kvs, rest) := by
  cases kvs with
  | nil =>
    have hshape : w ++ (printObj ind prAt ([] : List (String × α)) ++ rest)
        = w ++ '{' :: ('}' :: rest) := by
      simp [printObj]
    rw [hshape]
    unfold parseObj
    rw [expectChar_parses '{' (by decide) w hw ('}' :: rest)]
    simp only [Option.bind_eq_bind, Option.some_bind]
    rw [skipWs_cons_not (by decide)]
    rfl
  | cons kv tl =>
    obtain ⟨k, v⟩ := kv
    have hshape : w ++ (printObj ind prAt ((k, v) :: tl) ++ rest)
        = w ++ '{' :: ('\n' :: (printItems (ind + 2) (prAt (ind + 2)) ((k, v) :: tl) ++
            ('\n' :: (spacesC ind ++ '}' :: rest)))) := by
      simp only [printObj, List.append_assoc, List.cons_append, List.singleton_append,
        List.nil_append]
    rw [hshape]
    unfold parseObj
    rw [expectChar_parses '{' (by decide) w hw ('\n' :: (printItems (ind + 2)
      (prAt (ind + 2)) ((k, v) :: tl) ++ ('\n' :: (spacesC ind ++ '}' :: rest))))]
    simp only [Option.bind_eq_bind, Option.some_bind]
    set r0 : List Char := '\n' :: (printItems (ind + 2) (prAt (ind + 2)) ((k, v) :: tl) ++
      ('\n' :: (spacesC ind ++ '}' :: rest))) with hr0
    have hsplit : ∃ z, r0 = ('\n' :: spacesC (ind + 2)) ++ ('"' :: z) := by
      cases tl with
      | nil =>
        refine ⟨k.data ++ ('"' :: (':' :: ' ' :: (prAt (ind + 2) v ++
          ('\n' :: (spacesC ind ++ '}' :: rest))))), ?_⟩
        rw [hr0]
        simp [printItems, fieldLine, quoteStr, List.append_assoc]
      | cons kv2 tl2 =>
        refine ⟨k.data ++ ('"' :: (':' :: ' ' :: (prAt (ind + 2) v ++
          (',' :: '\n' :: (printItems (ind + 2) (prAt (ind + 2)) (kv2 :: tl2) ++
            ('\n' :: (spacesC ind ++ '}' :: rest))))))), ?_⟩
        rw [hr0]
        simp [printItems, fieldLine, quoteStr, List.append_assoc]
    obtain ⟨z, hz⟩ := hsplit
    have hy : skipWs r0 = '"' :: z := by
      rw [hz, skipWs_append_ws ('\n' :: spacesC (ind + 2))
        (wsList_cons (by decide) (spacesC_ws _)), skipWs_cons_not (by decide)]
    rw [hy]
    show parseEntries pVal (r0.length + 1) r0 = some ((k, v) :: tl, rest)
    rw [hr0]
    refine parseEntries_parses pVal (prAt (ind + 2)) ((k, v) :: tl) (by simp) hkeys hVal
      (ind + 2) ['\n'] (wsList_single (by decide)) (spacesC ind) rest (spacesC_ws ind)
      _ ?_
    have h2 := printItems_length_ge (prAt (ind + 2)) (ind + 2) ((k, v) :: tl) (by simp)
    simp only [List.length_cons, List.length_append] at h2 ⊢
    omega

theorem parseDeckEntry_parses (ind : Nat) (d : DeckEntry)
    (hkeys : ∀ qr ∈ d.questions, goodKey qr.1 = true)
    (w : List Char) (hw : WsList w) (rest : List Char) :
    parseDeckEntry (w ++ (printDeckEntry ind d ++ rest)) = some (d, rest) := by
  obtain ⟨qs⟩ := d
  set T : List Char := '\n' :: (spacesC ind ++ '}' :: rest) with hT
  set V : List Char := printObj (ind + 2) printQRecord qs with hV
  have hnorm : printDeckEntry ind ⟨qs⟩ ++ rest
      = '{' :: ('\n' :: (fieldLine (ind + 2) "questions" V ++ T)) := by
    rw [hT, hV]
    simp only [printDeckEntry, List.append_assoc, List.cons_append, List.singleton_append,
      List.nil_append]
  have e0 : expectChar '{' (w ++ (printDeckEntry ind ⟨qs⟩ ++ rest))
      = some ('\n' :: (fieldLine (ind + 2) "questions" V ++ T)) := by
    rw [hnorm]
    exact expectChar_parses '{' (by decide) w hw _
  have e1 : expectKey "questions" ('\n' :: (fieldLine (ind + 2) "questions" V ++ T))
      = some (' ' :: (V ++ T)) := by
    have hshape : ('\n' :: (fieldLine (ind + 2) "questions" V ++ T))
        = (('\n' :: spacesC (ind + 2)) ++ (quoteStr "questions" ++ ':' :: (' ' :: (V ++ T)))) := by
      simp [fieldLine, List.append_assoc]
    rw [hshape]
    exact expectKey_parses "questions" (by decide) ('\n' :: spacesC (ind + 2))
      (wsList_cons (by decide) (spacesC_ws _)) _
  have e2 : parseObj parseQRecord (' ' :: (V ++ T)) = some (qs, T) := by
    rw [hV]
    exact parseObj_parses parseQRecord printQRecord (ind + 2) qs hkeys
      (fun kv _ w' hw' tail => parseQRecord_parses (ind + 2 + 2) kv.2 w' hw' tail)
      [' '] (wsList_single (by decide)) T
  have e3 : expectChar '}' T = some rest := by
    rw [hT]
    exact expectChar_parses '}' (by decide) ('\n' :: spacesC ind)
      (wsList_cons (by decide) (spacesC_ws _)) rest
  unfold parseDeckEntry
  rw [e0]
  simp only [Option.bind_eq_bind, Option.some_bind]
  rw [e1]
  simp only [Option.bind_eq_bind, Option.some_bind]
  rw [e2]
  simp only [Option.bind_eq_bind, Option.some_bind]
  rw [e3]
  simp only [Option.bind_eq_bind, Option.some_bind]

theorem parseProgressDB_parses (db : ProgressDB) (h : WellFormedDB db)
    (w : List Char) (hw : WsList w) (rest : List Char) :
    parseProgressDB (w ++ (printProgressDB db ++ rest)) = some (db, rest) := by
  obtain ⟨v, ds⟩ := db
  set OBJ : List Char := printObj 2 printDeckEntry ds with hOBJ
  set b2 : List Char := fieldLine 2 "decks" OBJ ++ ('\n' :: '}' :: rest) with hb2
  set t1 : List Char := ',' :: '\n' :: b2 with ht1
  set b1 : List Char := fieldLine 2 "version" (printInt v) ++ t1 with hb1
  have hnorm : printProgressDB ⟨v, ds⟩ ++ rest = '{' :: '\n' :: b1 := by
    simp only [printProgressDB, hb1, ht1, hb2, hOBJ, List.append_assoc, List.cons_append,
      List.singleton_append, List.nil_append]
  have e0 : expectChar '{' (w ++ (printProgressDB ⟨v, ds⟩ ++ rest)) = some ('\n' :: b1) := by
    rw [hnorm]
    exact expectChar_parses '{' (by decide) w hw _
  have e1 : expectKey "version" ('\n' :: b1) = some (' ' :: (printInt v ++ t1)) := by
    rw [hb1]
    have hshape : ('\n' :: (fieldLine 2 "version" (printInt v) ++ t1))
        = (('\n' :: spacesC 2) ++ (quoteStr "version" ++ ':' :: (' ' :: (printInt v ++ t1)))) := by
      simp [fieldLine, List.append_assoc]
    rw [hshape]
    exact expectKey_parses "version" (by decide) ('\n' :: spacesC 2)
      (wsList_cons (by decide) (spacesC_ws _)) _
  have e2 : parseIntTok (' ' :: (printInt v ++ t1)) = some (v, t1) := by
    refine parseIntTok_print v [' '] (wsList_single (by decide)) t1 ?_
    intro c hc
    rw [ht1] at hc
    rw [List.head?_cons, Option.some_inj] at hc
    subst hc
    decide
  have e3 : expectChar ',' t1 = some ('\n' :: b2) := by
    rw [ht1]
    exact expectChar_parses ',' (by decide) [] wsList_nil ('\n' :: b2)
  have e4 : expectKey "decks" ('\n' :: b2) = some (' ' :: (OBJ ++ ('\n' :: '}' :: rest))) := by
    rw [hb2]
    have hshape : ('\n' :: (fieldLine 2 "decks" OBJ ++ ('\n' :: '}' :: rest)))
        = (('\n' :: spacesC 2) ++ (quoteStr "decks" ++ ':' ::
            (' ' :: (OBJ ++ ('\n' :: '}' :: rest))))) := by
      simp [fieldLine, List.append_assoc]
    rw [hshape]
    exact expectKey_parses "decks" (by decide) ('\n' :: spacesC 2)
      (wsList_cons (by decide) (spacesC_ws _)) _
  have e5 : parseObj parseDeckEntry (' ' :: (OBJ ++ ('\n' :: '}' :: rest)))
      = some (ds, '\n' :: '}' :: rest) := by
    rw [hOBJ]
    exact parseObj_parses parseDeckEntry printDeckEntry 2 ds
      (fun kd hkd => (h kd hkd).1)
      (fun kd hkd w' hw' tail =>
        parseDeckEntry_parses (2 + 2) kd.2 (fun qr hqr => (h kd hkd).2 qr hqr) w' hw' tail)
      [' '] (wsList_single (by decide)) ('\n' :: '}' :: rest)
  have e6 : expectChar '}' ('\n' :: '}' :: rest) = some rest :=
    expectChar_parses '}' (by decide) ['\n'] (wsList_single (by decide)) rest
  unfold parseProgressDB parseDBHead
  rw [e0]
  simp only [Option.bind_eq_bind, Option.some_bind]
  rw [e1]
  simp only [Option.bind_eq_bind, Option.some_bind]
  rw [e2]
  simp only [Option.bind_eq_bind, Option.some_bind]
  rw [e3]
  simp only [Option.bind_eq_bind, Option.some_bind]
  rw [e4]
  simp only [Option.bind_eq_bind, Option.some_bind]
  rw [e5]
  simp only [Option.bind_eq_bind, Option.some_bind]
  rw [e6]
  simp only [Option.bind_eq_bind, Option.some_bind]

theorem loadsProgress_dumps (db : ProgressDB) (h : WellFormedDB db) :
    loadsProgress (dumpsProgress db) = some db := by
  unfold loadsProgress dumpsProgress
  have e : parseProgressDB (([] : List Char) ++ (printProgressDB db ++ [])) = some (db, []) :=
    parseProgressDB_parses db h [] wsList_nil []
  rw [show (([] : List Char) ++ (printProgressDB db ++ [])) = printProgressDB db from by simp]
    at e
  rw [show (String.mk (printProgressDB db)).data = printProgressDB db from rfl, e]
  rfl

/-- **C7.** Round trip of the Progress Store: for every well-formed
progress database, saving with `save_progress` and then loading with
`load_progress` returns the same database. -/
theorem load_progress_save_progress (db : ProgressDB) (fs : Option String)
    (h : WellFormedDB db) :
    load_progress (save_progress db fs) = db := by
  unfold load_progress save_progress
  show (loadsProgress (dumpsProgress db)).getD defaultProgress = db
  rw [loadsProgress_dumps db h]
  rfl

/-- A small progress database used by concrete witnesses. -/
def demoDB : ProgressDB :=
  ⟨1, [("decks/algebra.json", ⟨[("q1", ⟨true, 3, 1, 85, 1700000000⟩)]⟩)]⟩

/-- Witness for C7 at a concrete database and file state. -/
theorem load_progress_save_progress_witness :
    WellFormedDB demoDB ∧ load_progress (save_progress demoDB Option.none) = demoDB :=
  ⟨by unfold WellFormedDB; decide, load_progress_save_progress demoDB Option.none
    (by unfold WellFormedDB; decide)⟩

/-- **C8.** `load_progress` returns the default `{"version": 1, "decks": {}}`
when the backing file is absent, and also when its contents fail to parse;
being a total function, it never raises. -/
theorem load_progress_corrupt_default :
    load_progress Option.none = defaultProgress ∧
      ∀ s : String, loadsProgress s = Option.none →
        load_progress (some s) = defaultProgress := by
  constructor
  · rfl
  · intro s hs
    unfold load_progress
    show (loadsProgress s).getD defaultProgress = defaultProgress
    rw [hs]
    rfl

/-- Witness for C8 at a concrete corrupt file. -/
theorem load_progress_corrupt_default_witness :
    loadsProgress "not json" = Option.none ∧
      load_progress (some "not json") = defaultProgress :=
  ⟨by decide, load_progress_corrupt_default.2 "not json" (by decide)⟩

/-! ## Review Session (`LumioMainWindow`)

The session state mutated by `__init__` / `on_check` / `_load_current` /
`_persist_question_state`, with the UI widgets stripped.  Loaded decks are
an environment value: `decks` (insertion-ordered, one entry per deck key),
each with the scheduler's view of the due date (a day number) and the
question list; `today` is `date.today()`.  Python dicts keyed by strings
are association lists; the counter dicts (`attempts`, `fail_counts`,
`points`, defaulted via `.get(·, d)`) are total functions.
`random.shuffle` is an oracle function passed explicitly; theorems assume
only that it permutes its input. -/

structure DeckInfo where
  due_date : Option ℤ
  questions : List TextQuestion

structure SessionEnv where
  decks : List (String × DeckInfo)
  today : ℤ

/-- The global question id `f"{dk}::{q.id}"`. -/
def gqidOf (dk : String) (q : TextQuestion) : String := dk ++ "::" ++ q.id

/-- The `__init__` loop over all decks: one entry `(gqid, (dk, q))` per
question, in insertion order (models `all_questions` and
`global_to_deck`, whose keys coincide). -/
def envEntries (env : SessionEnv) : List (String × String × TextQuestion) :=
  env.decks.flatMap (fun kd => kd.2.questions.map (fun q => (gqidOf kd.1 q, kd.1, q)))

/-- `self.all_questions : gqid -> TextQuestion`. -/
def envAllQuestions (env : SessionEnv) : List (String × TextQuestion) :=
  (envEntries env).map (fun e => (e.1, e.2.2))

/-- `self.global_to_deck : gqid -> deck key`. -/
def envGlobalToDeck (env : SessionEnv) : List (String × String) :=
  (envEntries env).map (fun e => (e.1, e.2.1))

def envAllGqids (env : SessionEnv) : List String := (envEntries env).map Prod.fst

/-- Generic association-list lookup (Python `d.get(k)`). -/
def alistGet {α : Type} : List (String × α) → String → Option α
  | [], _ => Option.none
  | (k', v) :: rest, k => if k' = k then some v else alistGet rest k

/-- Generic association-list write (Python `d[k] = v`: update in place if
present, else append). -/
def alistSet {α : Type} : List (String × α) → String → α → List (String × α)
  | [], k, v => [(k, v)]
  | (k', v') :: rest, k, v =>
    if k' = k then (k, v) :: rest else (k', v') :: alistSet rest k v

/-- `progress_db["decks"][dk]["questions"][qid]`, if present. -/
def persistedRecord (db : ProgressDB) (dk qid : String) : Option QRecord :=
  (alistGet db.decks dk).bind (fun d => alistGet d.questions qid)

/-- The `setdefault` chain of `_persist_question_state`: write one
question record, creating the deck/questions levels if absent. -/
def dbSetRecord (db : ProgressDB) (dk qid : String) (rec : QRecord) : ProgressDB :=
  let old : DeckEntry := (alistGet db.decks dk).getD ⟨[]⟩
  { db with decks := alistSet db.decks dk ⟨alistSet old.questions qid rec⟩ }

structure Session where
  mastered : Finset String
  queue : List String
  currentId : Option String
  attempts : String → ℤ
  failCounts : String → ℤ
  points : String → ℤ
  todaySet : Finset String
  progressDb : ProgressDB
  fileState : Option String

/-- Python's `round` (bankers' rounding: halves go to the even integer). -/
def pyRound (q : ℚ) : ℤ :=
  if q - ⌊q⌋ = 1/2 then (if Even ⌊q⌋ then ⌊q⌋ else ⌊q⌋ + 1) else round q

/-- The per-deck quota sampling loop of `_build_daily_queue`. -/
def quota_selection (shuffle : List String → List String) (env : SessionEnv)
    (mastered : Finset String) : List String :=
  env.decks.flatMap (fun kd =>
    let qs := kd.2.questions
    let total : ℤ := qs.length
    let masteredInDeck : ℤ := (qs.filter (fun q => gqidOf kd.1 q ∈ mastered)).length
    let remaining := total - masteredInDeck
    let quota := deck_daily_quota kd.2.due_date remaining env.today
    if quota ≤ 0 then []
    else
      let candidates := (qs.filter (fun q => gqidOf kd.1 q ∉ mastered)).map
        (fun q => gqidOf kd.1 q)
      (shuffle candidates).take quota.toNat)

/-- `_build_daily_queue` from `src/main.py`: per-deck quota sampling, with
the all-open-questions fallback when the combined selection is empty. -/
def build_daily_queue (shuffle : List String → List String) (env : SessionEnv)
    (mastered : Finset String) : List String :=
  let qids := quota_selection shuffle env mastered
  if qids.isEmpty then (envAllGqids env).filter (fun g => g ∉ mastered)
  else qids

/-- `if self.queue and self.queue[0] == gq: self.queue.pop(0)`. -/
def popHeadIf (queue : List String) (g : String) : List String :=
  match queue with
  | [] => []
  | q0 :: rest => if q0 = g then rest else q0 :: rest

/-- `_persist_question_state(gqid)`: build the record from the current
session state, write it through `dbSetRecord`, and `save_progress` the
whole snapshot to the file. -/
def persist_question_state (s : Session) (gq dk qid : String) (now : ℤ) :
    ProgressDB × Option String :=
  let qrec : QRecord :=
    ⟨decide (gq ∈ s.mastered), s.attempts gq, s.failCounts gq, s.points gq, now⟩
  let db' := dbSetRecord s.progressDb dk qid qrec
  (db', some (dumpsProgress db'))

/-- The body of `on_check` once the current question `gq` and its deck key
are resolved: bump `attempts`, score, record `points`, master-and-pop or
fail-and-requeue, then persist (`int(time.time())` is the explicit
`now`). -/
def checkedSession (s : Session) (gq : String) (q : TextQuestion) (dk : String)
    (text : String) (now : ℤ) : Session :=
  let result := compute_score q text
  let pts := pyRound (result.effective * 100)
  let s1 : Session := { s with
    attempts := Function.update s.attempts gq (s.attempts gq + 1),
    points := Function.update s.points gq pts }
  let s2 : Session :=
    if result.passed then
      { s1 with mastered := insert gq s1.mastered, queue := popHeadIf s1.queue gq }
    else
      { s1 with
        failCounts := Function.update s1.failCounts gq (s1.failCounts gq + 1),
        queue := popHeadIf s1.queue gq ++ [gq] }
  let pr := persist_question_state s2 gq dk q.id now
  { s2 with progressDb := pr.1, fileState := pr.2 }

/-- `on_check` from `src/main.py` (feedback rendering dropped): no-op
when no question is current; `Option.none` models the `KeyError` when the
current id is not a known question. -/
def on_check (env : SessionEnv) (s : Session) (text : String) (now : ℤ) :
    Option Session :=
  match s.currentId with
  | Option.none => some s
  | some gq =>
    match alistGet (envAllQuestions env) gq, alistGet (envGlobalToDeck env) gq with
    | some q, some dk => some (checkedSession s gq q dk text now)
    | _, _ => Option.none

/-- `_load_current` from `src/main.py` (label/widget updates dropped):
finish when everything is mastered; silently drop mastered queue heads;
rebuild today's pack when the queue empties; present the head. -/
def load_current (shuffle : List String → List String) (env : SessionEnv)
    (s : Session) : Session :=
  if s.mastered.card = (envAllQuestions env).length then
    { s with currentId := Option.none }
  else
    let q1 := s.queue.dropWhile (fun g => decide (g ∈ s.mastered))
    if q1.isEmpty then
      let base := build_daily_queue shuffle env s.mastered
      let queue2 := shuffle base
      if queue2.isEmpty then
        { s with queue := queue2, todaySet := base.toFinset, currentId := Option.none }
      else
        { s with queue := queue2, todaySet := base.toFinset, currentId := queue2.head? }
    else
      { s with queue := q1, currentId := q1.head? }

/-- `LumioMainWindow.__init__` (UI construction dropped): load progress,
derive mastery and counters, build and shuffle today's queue, snapshot
`today_set`, then `_load_current`. -/
def initSession (env : SessionEnv) (fs : Option String)
    (shuffle : List String → List String) : Session :=
  let db := load_progress fs
  let mastered : Finset String :=
    (((envEntries env).filter (fun e =>
      ((persistedRecord db e.2.1 e.2.2.id).map QRecord.mastered).getD false)).map
        Prod.fst).toFinset
  let attempts : String → ℤ := fun gq =>
    match alistGet (envEntries env) gq with
    | some e => ((persistedRecord db e.1 e.2.id).map QRecord.attempts).getD 0
    | Option.none => 0
  let fails : String → ℤ := fun gq =>
    match alistGet (envEntries env) gq with
    | some e => ((persistedRecord db e.1 e.2.id).map QRecord.fails).getD 0
    | Option.none => 0
  let points : String → ℤ := fun gq =>
    match alistGet (envEntries env) gq with
    | some e => ((persistedRecord db e.1 e.2.id).map QRecord.points).getD (-1)
    | Option.none => -1
  let base := build_daily_queue shuffle env mastered
  let s0 : Session :=
    ⟨mastered, shuffle base, Option.none, attempts, fails, points, base.toFinset, db, fs⟩
  load_current shuffle env s0

/-- One user-visible step: a `check` on the current question followed by
`next` (`_load_current`), with fresh shuffle randomness. -/
def SessionStep (env : SessionEnv) (s s' : Session) : Prop :=
  ∃ (text : String) (now : ℤ) (shuffle : List String → List String) (s'' : Session),
    (∀ l : List String, List.Perm (shuffle l) l) ∧
      on_check env s text now = some s'' ∧ s' = load_current shuffle env s''

/-! ### Scheduler facts (C6) -/

/-- The global ids one deck contributes. -/
def deckGqids (kd : String × DeckInfo) : List String :=
  kd.2.questions.map (fun q => gqidOf kd.1 q)

theorem envAllGqids_eq (env : SessionEnv) :
    envAllGqids env = env.decks.flatMap deckGqids := by
  unfold envAllGqids envEntries deckGqids
  rw [List.map_flatMap]
  simp [List.map_map, Function.comp_def]

theorem mem_envAllGqids_of {env : SessionEnv} {kd : String × DeckInfo}
    (hkd : kd ∈ env.decks) {q : TextQuestion} (hq : q ∈ kd.2.questions) :
    gqidOf kd.1 q ∈ envAllGqids env := by
  rw [envAllGqids_eq]
  rw [List.mem_flatMap]
  exact ⟨kd, hkd, List.mem_map_of_mem _ hq⟩

theorem mem_quota_selection {shuffle : List String → List String} {env : SessionEnv}
    {mastered : Finset String} (hprm : ∀ l, List.Perm (shuffle l) l) {x : String}
    (hx : x ∈ quota_selection shuffle env mastered) :
    x ∉ mastered ∧ ∃ kd ∈ env.decks, ∃ q ∈ kd.2.questions, x = gqidOf kd.1 q := by
  unfold quota_selection at hx
  rw [List.mem_flatMap] at hx
  obtain ⟨kd, hkd, hxin⟩ := hx
  simp only [] at hxin
  split at hxin
  · simp at hxin
  · have hx1 : x ∈ shuffle ((kd.2.questions.filter
        (fun q => gqidOf kd.1 q ∉ mastered)).map (fun q => gqidOf kd.1 q)) :=
      List.mem_of_mem_take hxin
    have hx2 := (hprm _).mem_iff.mp hx1
    rw [List.mem_map] at hx2
    obtain ⟨q, hqf, rfl⟩ := hx2
    rw [List.mem_filter] at hqf
    refine ⟨?_, kd, hkd, q, hqf.1, rfl⟩
    have := hqf.2
    simpa using this

/-- **C6.** When the per-deck quota selection is empty, `_build_daily_queue`
falls back to exactly the non-mastered global ids of all loaded decks; and
in every case every id in the returned list is not currently mastered. -/
theorem build_daily_queue_spec (shuffle : List String → List String)
    (hprm : ∀ l, List.Perm (shuffle l) l) (env : SessionEnv) (mastered : Finset String) :
    (quota_selection shuffle env mastered = [] →
      build_daily_queue shuffle env mastered
        = (envAllGqids env).filter (fun g => g ∉ mastered)) ∧
      (quota_selection shuffle env mastered = [] →
        ∀ x, x ∈ build_daily_queue shuffle env mastered ↔
          (x ∈ envAllGqids env ∧ x ∉ mastered)) ∧
      ∀ x ∈ build_daily_queue shuffle env mastered, x ∉ mastered := by
  have hfall : quota_selection shuffle env mastered = [] →
      build_daily_queue shuffle env mastered
        = (envAllGqids env).filter (fun g => g ∉ mastered) := by
    intro h
    unfold build_daily_queue
    rw [h]
    rfl
  refine ⟨hfall, ?_, ?_⟩
  · intro h x
    rw [hfall h, List.mem_filter]
    simp
  · intro x hx
    simp only [build_daily_queue] at hx
    split at hx
    · rw [List.mem_filter] at hx
      simpa using hx.2
    · exact (mem_quota_selection hprm hx).1

/-- Deck environment used by concrete witnesses: one deck without a due
date holding the demo question. -/
def demoEnv : SessionEnv := ⟨[("decks/demo.json", ⟨Option.none, [demoQuestion]⟩)], 0⟩

/-- Witness for C6: with no due date the quota selection is empty and the
fallback returns the single open question. -/
theorem build_daily_queue_spec_witness :
    quota_selection (fun l => l) demoEnv ∅ = [] ∧
      build_daily_queue (fun l => l) demoEnv ∅
        = (envAllGqids demoEnv).filter (fun g => g ∉ (∅ : Finset String)) ∧
      ∀ x ∈ build_daily_queue (fun l => l) demoEnv ∅, x ∉ (∅ : Finset String) := by
  have h := build_daily_queue_spec (fun l => l) (fun l => List.Perm.refl l) demoEnv ∅
  exact ⟨rfl, h.1 rfl, h.2.2⟩

/-! ### Check-transition facts (C3) -/

theorem alistGet_alistSet_self {α : Type} (l : List (String × α)) (k : String) (v : α) :
    alistGet (alistSet l k v) k = some v := by
  induction l with
  | nil => simp [alistSet, alistGet]
  | cons p rest ih =>
    obtain ⟨k1, v1⟩ := p
    by_cases h : k1 = k
    · simp [alistSet, h, alistGet]
    · simp [alistSet, h, alistGet, ih]

theorem persistedRecord_dbSetRecord (db : ProgressDB) (dk qid : String) (r : QRecord) :
    persistedRecord (dbSetRecord db dk qid r) dk qid = some r := by
  unfold persistedRecord dbSetRecord
  simp [alistGet_alistSet_self]

/-- **C3.** A `check` with a resolvable current question succeeds and: bumps
that question's `attempts` by exactly one; on a pass, inserts the global id
into `mastered` and removes it from the queue (leaving the tail, with the
id not in it); on a fail, bumps `fails` by one and moves the id from the
queue head to the queue tail; and in both cases the returned session's file
snapshot is exactly the serialized updated progress store, which holds the
fresh record (mastery flag, counters, points, timestamp) for this question. -/
theorem on_check_spec (env : SessionEnv) (s : Session) (text : String) (now : ℤ)
    (gq : String) (q : TextQuestion) (dk : String)
    (hcur : s.currentId = some gq)
    (hq : alistGet (envAllQuestions env) gq = some q)
    (hdk : alistGet (envGlobalToDeck env) gq = some dk)
    (hhead : s.queue.head? = some gq)
    (hnodup : s.queue.Nodup) :
    ∃ s', on_check env s text now = some s' ∧
      s'.attempts gq = s.attempts gq + 1 ∧
      ((compute_score q text).passed = true →
        gq ∈ s'.mastered ∧ s'.queue = s.queue.tail ∧ gq ∉ s'.queue ∧
          s'.failCounts gq = s.failCounts gq) ∧
      ((compute_score q text).passed = false →
        s'.failCounts gq = s.failCounts gq + 1 ∧ s'.queue = s.queue.tail ++ [gq] ∧
          s'.mastered = s.mastered) ∧
      s'.fileState = some (dumpsProgress s'.progressDb) ∧
      persistedRecord s'.progressDb dk q.id =
        some ⟨decide (gq ∈ s'.mastered), s'.attempts gq, s'.failCounts gq,
          s'.points gq, now⟩ := by
  obtain ⟨t, hqueue⟩ : ∃ t, s.queue = gq :: t := by
    cases hql : s.queue with
    | nil => rw [hql] at hhead; simp at hhead
    | cons a t =>
      rw [hql] at hhead
      simp only [List.head?_cons, Option.some.injEq] at hhead
      exact ⟨t, by rw [hhead]⟩
  refine ⟨checkedSession s gq q dk text now, ?_, ?_, ?_, ?_, ?_, ?_⟩
  · simp only [on_check, hcur, hq, hdk]
  · have ha : (checkedSession s gq q dk text now).attempts
        = Function.update s.attempts gq (s.attempts gq + 1) := by
      unfold checkedSession persist_question_state
      by_cases hp : (compute_score q text).passed = true <;> simp [hp]
    rw [ha, Function.update_same]
  · intro hpass
    have hm : (checkedSession s gq q dk text now).mastered = insert gq s.mastered := by
      unfold checkedSession persist_question_state
      simp [hpass]
    have hqe : (checkedSession s gq q dk text now).queue = popHeadIf s.queue gq := by
      unfold checkedSession persist_question_state
      simp [hpass]
    have hpopped : popHeadIf s.queue gq = t := by
      rw [hqueue]
      simp [popHeadIf]
    have hnin : gq ∉ t := (List.nodup_cons.mp (hqueue ▸ hnodup)).1
    have hfc : (checkedSession s gq q dk text now).failCounts = s.failCounts := by
      unfold checkedSession persist_question_state
      simp [hpass]
    refine ⟨hm ▸ Finset.mem_insert_self gq s.mastered, ?_, ?_, by rw [hfc]⟩
    · rw [hqe, hpopped, hqueue]
      rfl
    · rw [hqe, hpopped]
      exact hnin
  · intro hfail
    have hp : ¬ (compute_score q text).passed = true := by simp [hfail]
    have hfc : (checkedSession s gq q dk text now).failCounts
        = Function.update s.failCounts gq (s.failCounts gq + 1) := by
      unfold checkedSession persist_question_state
      simp [hp]
    have hqe : (checkedSession s gq q dk text now).queue
        = popHeadIf s.queue gq ++ [gq] := by
      unfold checkedSession persist_question_state
      simp [hp]
    have hpopped : popHeadIf s.queue gq = t := by
      rw [hqueue]
      simp [popHeadIf]
    have hm : (checkedSession s gq q dk text now).mastered = s.mastered := by
      unfold checkedSession persist_question_state
      simp [hp]
    refine ⟨by rw [hfc, Function.update_same], ?_, hm⟩
    rw [hqe, hpopped, hqueue]
    rfl
  · rfl
  · exact persistedRecord_dbSetRecord _ _ _ _

/-- Session state used by concrete witnesses: the demo question pending,
current, and alone in the queue, over a fresh progress store. -/
def demoSession0 : Session :=
  ⟨∅, ["decks/demo.json::q1"], some "decks/demo.json::q1",
   fun _ => 0, fun _ => 0, fun _ => -1,
   {"decks/demo.json::q1"}, defaultProgress, Option.none⟩

/-- Witness for C3 at the demo session (the empty answer fails the check,
so the fail branch fires and the record is persisted). -/
theorem on_check_spec_witness :
    ∃ s', on_check demoEnv demoSession0 "" 99 = some s' ∧
      s'.attempts "decks/demo.json::q1" = demoSession0.attempts "decks/demo.json::q1" + 1 ∧
      ((compute_score demoQuestion "").passed = true →
        "decks/demo.json::q1" ∈ s'.mastered ∧ s'.queue = demoSession0.queue.tail ∧
          "decks/demo.json::q1" ∉ s'.queue ∧
          s'.failCounts "decks/demo.json::q1" = demoSession0.failCounts "decks/demo.json::q1") ∧
      ((compute_score demoQuestion "").passed = false →
        s'.failCounts "decks/demo.json::q1"
            = demoSession0.failCounts "decks/demo.json::q1" + 1 ∧
          s'.queue = demoSession0.queue.tail ++ ["decks/demo.json::q1"] ∧
          s'.mastered = demoSession0.mastered) ∧
      s'.fileState = some (dumpsProgress s'.progressDb) ∧
      persistedRecord s'.progressDb "decks/demo.json" demoQuestion.id =
        some ⟨decide ("decks/demo.json::q1" ∈ s'.mastered),
          s'.attempts "decks/demo.json::q1", s'.failCounts "decks/demo.json::q1",
          s'.points "decks/demo.json::q1", 99⟩ :=
  on_check_spec demoEnv demoSession0 "" 99 "decks/demo.json::q1" demoQuestion
    "decks/demo.json" rfl rfl rfl rfl (by decide)

/-! ### Queue invariant (C4) -/

/-- The queue-side invariant: no duplicates, disjoint from `mastered`,
and every queued id is a known global id. -/
def InvQ (env : SessionEnv) (s : Session) : Prop :=
  s.queue.Nodup ∧ (∀ x ∈ s.queue, x ∉ s.mastered) ∧ ∀ x ∈ s.queue, x ∈ envAllGqids env

/-- The full session invariant: `InvQ` plus "the current question is the
queue head". -/
def Inv (env : SessionEnv) (s : Session) : Prop :=
  InvQ env s ∧ ∀ gq, s.currentId = some gq → s.queue.head? = some gq

theorem queue_shape {l : List String} {g : String} (h : l.head? = some g) :
    ∃ t, l = g :: t := by
  cases l with
  | nil => simp at h
  | cons a t =>
    simp only [List.head?_cons, Option.some.injEq] at h
    exact ⟨t, by rw [h]⟩

theorem mem_build_daily_queue {shuffle : List String → List String} {env : SessionEnv}
    {mastered : Finset String} (hprm : ∀ l, List.Perm (shuffle l) l) {x : String}
    (hx : x ∈ build_daily_queue shuffle env mastered) :
    x ∈ envAllGqids env ∧ x ∉ mastered := by
  simp only [build_daily_queue] at hx
  split at hx
  · rw [List.mem_filter] at hx
    refine ⟨hx.1, by simpa using hx.2⟩
  · obtain ⟨hm, kd, hkd, q, hq, rfl⟩ := mem_quota_selection hprm hx
    exact ⟨mem_envAllGqids_of hkd hq, hm⟩

theorem nodup_flatMap_each {β : Type} {f : β → List String} {l : List β}
    (h : (l.flatMap f).Nodup) : ∀ b ∈ l, (f b).Nodup := by
  induction l with
  | nil => intro b hb; simp at hb
  | cons a l ih =>
    rw [List.flatMap_cons, List.nodup_append] at h
    intro b hb
    rcases List.mem_cons.mp hb with rfl | hb
    · exact h.1
    · exact ih h.2.1 b hb

theorem nodup_flatMap_sub {β : Type} {l : List β} {f g : β → List String}
    (hsub : ∀ b ∈ l, ∀ x ∈ g b, x ∈ f b)
    (hnd : ∀ b ∈ l, (g b).Nodup)
    (h : (l.flatMap f).Nodup) : (l.flatMap g).Nodup := by
  induction l with
  | nil => simp
  | cons b l ih =>
    rw [List.flatMap_cons, List.nodup_append] at h ⊢
    obtain ⟨h1, h2, h3⟩ := h
    refine ⟨hnd b (List.mem_cons_self b l),
      ih (fun c hc => hsub c (List.mem_cons_of_mem b hc))
        (fun c hc => hnd c (List.mem_cons_of_mem b hc)) h2, ?_⟩
    intro x hx hy
    rw [List.mem_flatMap] at hy
    obtain ⟨c, hc, hyc⟩ := hy
    exact h3 (hsub b (List.mem_cons_self b l) x hx)
      (List.mem_flatMap.mpr ⟨c, hc, hsub c (List.mem_cons_of_mem b hc) x hyc⟩)

theorem build_daily_queue_nodup (shuffle : List String → List String)
    (hprm : ∀ l, List.Perm (shuffle l) l) (env : SessionEnv) (mastered : Finset String)
    (henv : (envAllGqids env).Nodup) :
    (build_daily_queue shuffle env mastered).Nodup := by
  have hflat : (env.decks.flatMap deckGqids).Nodup := by
    rw [← envAllGqids_eq]
    exact henv
  simp only [build_daily_queue]
  split
  · exact henv.filter _
  · unfold quota_selection
    refine nodup_flatMap_sub ?_ ?_ hflat
    · intro kd hkd x hx
      simp only [] at hx
      split at hx
      · simp at hx
      · have hx1 := List.mem_of_mem_take hx
        have hx2 := (hprm _).mem_iff.mp hx1
        rw [List.mem_map] at hx2
        obtain ⟨q, hqf, rfl⟩ := hx2
        rw [List.mem_filter] at hqf
        unfold deckGqids
        exact List.mem_map_of_mem _ hqf.1
    · intro kd hkd
      have hdg : (deckGqids kd).Nodup := nodup_flatMap_each hflat kd hkd
      simp only []
      split
      · exact List.nodup_nil
      · have hc : ((kd.2.questions.filter
            (fun q => decide (gqidOf kd.1 q ∉ mastered))).map
              (fun q => gqidOf kd.1 q)).Nodup := by
          have hs : ((kd.2.questions.filter
              (fun q => decide (gqidOf kd.1 q ∉ mastered))).map
                (fun q => gqidOf kd.1 q)).Sublist (deckGqids kd) :=
            List.Sublist.map _ (List.filter_sublist _)
          exact hs.nodup hdg
        have hsn := ((hprm _).nodup_iff).mpr hc
        exact (List.take_sublist _ _).nodup hsn

theorem load_current_inv (shuffle : List String → List String)
    (hprm : ∀ l, List.Perm (shuffle l) l) (env : SessionEnv)
    (henv : (envAllGqids env).Nodup) (s : Session) (h : InvQ env s) :
    Inv env (load_current shuffle env s) := by
  obtain ⟨hnd, hdis, hall⟩ := h
  unfold Inv InvQ load_current
  split
  · exact ⟨⟨hnd, hdis, hall⟩, fun gq hgq => absurd hgq (by simp)⟩
  · simp only []
    split
    · split
      · refine ⟨⟨?_, ?_, ?_⟩, fun gq hgq => absurd hgq (by simp)⟩
        · exact ((hprm _).nodup_iff).mpr
            (build_daily_queue_nodup shuffle hprm env _ henv)
        · intro x hx
          exact (mem_build_daily_queue hprm ((hprm _).mem_iff.mp hx)).2
        · intro x hx
          exact (mem_build_daily_queue hprm ((hprm _).mem_iff.mp hx)).1
      · refine ⟨⟨?_, ?_, ?_⟩, fun gq hgq => hgq⟩
        · exact ((hprm _).nodup_iff).mpr
            (build_daily_queue_nodup shuffle hprm env _ henv)
        · intro x hx
          exact (mem_build_daily_queue hprm ((hprm _).mem_iff.mp hx)).2
        · intro x hx
          exact (mem_build_daily_queue hprm ((hprm _).mem_iff.mp hx)).1
    · have hsub : (s.queue.dropWhile (fun g => decide (g ∈ s.mastered))).Sublist
          s.queue := List.dropWhile_sublist _
      refine ⟨⟨hsub.nodup hnd, ?_, ?_⟩, fun gq hgq => hgq⟩
      · intro x hx
        exact hdis x (hsub.subset hx)
      · intro x hx
        exact hall x (hsub.subset hx)

theorem on_check_inv (env : SessionEnv) (s s2 : Session) (text : String) (now : ℤ)
    (h : Inv env s) (hoc : on_check env s text now = some s2) : InvQ env s2 := by
  obtain ⟨⟨hnd, hdis, hall⟩, hcur⟩ := h
  unfold on_check at hoc
  cases hc : s.currentId with
  | none =>
    rw [hc] at hoc
    simp only [Option.some.injEq] at hoc
    subst hoc
    exact ⟨hnd, hdis, hall⟩
  | some gq =>
    rw [hc] at hoc
    simp only [] at hoc
    cases hq : alistGet (envAllQuestions env) gq with
    | none =>
      rw [hq] at hoc
      simp at hoc
    | some q =>
      cases hdk : alistGet (envGlobalToDeck env) gq with
      | none =>
        rw [hq, hdk] at hoc
        simp at hoc
      | some dk =>
        rw [hq, hdk] at hoc
        simp only [Option.some.injEq] at hoc
        subst hoc
        obtain ⟨t, hqueue⟩ := queue_shape (hcur gq hc)
        have hgqq : gq ∈ s.queue := by
          rw [hqueue]
          exact List.mem_cons_self gq t
        have hgqt : gq ∉ t := (List.nodup_cons.mp (hqueue ▸ hnd)).1
        have htnd : t.Nodup := (List.nodup_cons.mp (hqueue ▸ hnd)).2
        have hpopped : popHeadIf s.queue gq = t := by
          rw [hqueue]
          simp [popHeadIf]
        by_cases hp : (compute_score q text).passed = true
        · have hqe : (checkedSession s gq q dk text now).queue = popHeadIf s.queue gq := by
            unfold checkedSession persist_question_state
            simp [hp]
          have hm : (checkedSession s gq q dk text now).mastered
              = insert gq s.mastered := by
            unfold checkedSession persist_question_state
            simp [hp]
          rw [InvQ, hqe, hm, hpopped]
          refine ⟨htnd, ?_, ?_⟩
          · intro x hx
            rw [Finset.mem_insert]
            push_neg
            refine ⟨?_, hdis x (by rw [hqueue]; exact List.mem_cons_of_mem gq hx)⟩
            intro hxe
            exact hgqt (hxe ▸ hx)
          · intro x hx
            exact hall x (by rw [hqueue]; exact List.mem_cons_of_mem gq hx)
        · have hqe : (checkedSession s gq q dk text now).queue
              = popHeadIf s.queue gq ++ [gq] := by
            unfold checkedSession persist_question_state
            simp [hp]
          have hm : (checkedSession s gq q dk text now).mastered = s.mastered := by
            unfold checkedSession persist_question_state
            simp [hp]
          rw [InvQ, hqe, hm, hpopped]
          refine ⟨?_, ?_, ?_⟩
          · rw [List.nodup_append]
            refine ⟨htnd, List.nodup_singleton gq, ?_⟩
            intro x hx hy
            rw [List.mem_singleton] at hy
            exact hgqt (hy ▸ hx)
          · intro x hx
            rcases List.mem_append.mp hx with hx | hx
            · exact hdis x (by rw [hqueue]; exact List.mem_cons_of_mem gq hx)
            · rw [List.mem_singleton] at hx
              exact hx ▸ hdis gq hgqq
          · intro x hx
            rcases List.mem_append.mp hx with hx | hx
            · exact hall x (by rw [hqueue]; exact List.mem_cons_of_mem gq hx)
            · rw [List.mem_singleton] at hx
              exact hx ▸ hall gq hgqq

theorem initSession_inv (env : SessionEnv) (fs : Option String)
    (shuffle : List String → List String) (hprm : ∀ l, List.Perm (shuffle l) l)
    (henv : (envAllGqids env).Nodup) :
    Inv env (initSession env fs shuffle) := by
  refine load_current_inv shuffle hprm env henv _ ⟨?_, ?_, ?_⟩
  · exact ((hprm _).nodup_iff).mpr (build_daily_queue_nodup shuffle hprm env _ henv)
  · intro x hx
    exact (mem_build_daily_queue hprm ((hprm _).mem_iff.mp hx)).2
  · intro x hx
    exact (mem_build_daily_queue hprm ((hprm _).mem_iff.mp hx)).1

/-- **C4.** Along any sequence of check-then-next steps from a freshly
built session, every global id occurs in the queue at most once and is
never simultaneously queued and mastered (so each id sits in exactly one
of: the mastered set, the queue once, or neither). -/
theorem session_queue_invariant (env : SessionEnv) (fs : Option String)
    (shuffle0 : List String → List String)
    (hprm0 : ∀ l, List.Perm (shuffle0 l) l)
    (henv : (envAllGqids env).Nodup) (s : Session)
    (hreach : Relation.ReflTransGen (SessionStep env)
      (initSession env fs shuffle0) s) :
    (∀ x, s.queue.count x ≤ 1) ∧ ∀ x, ¬(x ∈ s.mastered ∧ x ∈ s.queue) := by
  have hinv : Inv env s := by
    induction hreach with
    | refl => exact initSession_inv env fs shuffle0 hprm0 henv
    | tail hab hbc ih =>
      obtain ⟨text, now, shuffle, s2, hprm, hoc, rfl⟩ := hbc
      exact load_current_inv shuffle hprm env henv s2
        (on_check_inv env _ s2 text now ih hoc)
  refine ⟨List.nodup_iff_count_le_one.mp hinv.1.1, ?_⟩
  intro x ⟨hxm, hxq⟩
  exact hinv.1.2.1 x hxq hxm

/-- Witness for C4: the invariant at the freshly built demo session. -/
theorem session_queue_invariant_witness :
    (∀ x, (initSession demoEnv Option.none (fun l => l)).queue.count x ≤ 1) ∧
      ∀ x, ¬(x ∈ (initSession demoEnv Option.none (fun l => l)).mastered ∧
        x ∈ (initSession demoEnv Option.none (fun l => l)).queue) :=
  session_queue_invariant demoEnv Option.none (fun l => l)
    (fun l => List.Perm.refl l) (by decide) _ Relation.ReflTransGen.refl

end Lumio
